import Mathlib

/-!
Verification of the Smart-EDT raster editing engine.

This file gives a shallow embedding, in Lean 4, of the raster-editing core of
the Smart-EDT application (src/src/App.tsx and the identical logic in
src/src/components/ImageEditor.tsx): the pixel buffer, the flood-fill color
removal (`removeColorAt`), the background-color inference of the text eraser,
the undo/redo history (`saveState`, `undo`, `redo`), the screen-to-buffer
coordinate conversion (`getMousePos`), and the pan/zoom handlers.  Theorems at
the end of the file settle the specification claims about this code.

Modelling conventions:
* The canvas `ImageData` RGBA byte array (4 bytes per pixel, row-major) is
  modelled as a function from the flat row-major pixel index `idx = y*width+x`
  to an RGBA `Pixel` record; the source's `data[idx*4 + c]` channel accesses
  become field accesses of `Pixel`.
* JavaScript numbers holding pixel coordinates and view-transform quantities
  are modelled as rationals; integer-valued byte data as naturals.
* The source's `while (stack.length > 0)` loop of `removeColorAt` is embedded
  with an explicit fuel argument; the theorem `floodLoop_fuel_sound` below
  shows that the fuel used by `removeColorAt` always suffices, so the embedded
  function computes exactly what the source loop computes.
-/

namespace SmartEDT

/-- RGBA pixel: one byte per channel, as stored in the canvas `ImageData`
byte array (4 consecutive bytes per pixel). -/
structure Pixel where
  r : ℕ
  g : ℕ
  b : ℕ
  a : ℕ
deriving Repr, DecidableEq

/-- The canvas raster: RGBA values indexed by the flat row-major index
`idx = y * width + x` used throughout `removeColorAt`. -/
abbrev Buffer := ℕ → Pixel

/-- Opaque white, the replacement color of the flood fill
(`data[p]=255; data[p+1]=255; data[p+2]=255; data[p+3]=255`). -/
def white : Pixel := ⟨255, 255, 255, 255⟩

/-- The `matchColor` closure of `removeColorAt`:
`Math.sqrt((r-targetR)^2 + (g-targetG)^2 + (b-targetB)^2) < 40`.
Both sides are nonnegative, so the comparison is equivalent to comparing the
squared Euclidean distance with `40^2 = 1600`, which keeps the definition in
integer arithmetic. -/
def matchColor (tR tG tB r g b : ℕ) : Bool :=
  decide (((r : ℤ) - tR) ^ 2 + ((g : ℤ) - tG) ^ 2 + ((b : ℤ) - tB) ^ 2 < 1600)

/-- State of the flood-fill traversal: the RGBA data being mutated, the
`visited` bitmap (`new Uint8Array(width * height)`), and the explicit stack of
pixel coordinates (the source pushes the pair `x, y`; we keep pairs, head =
top of stack). -/
structure FillState where
  data : Buffer
  visited : ℕ → Bool
  stack : List (ℕ × ℕ)

/-- One iteration of the `while (stack.length > 0)` body of `removeColorAt`,
given the popped coordinates `(x, y)` and the remaining stack `rest`.
Neighbour pushes appear in source order `(x-1,y), (x+1,y), (x,y-1), (x,y+1)`;
with head-is-top cons the last push ends up on top, exactly as with the
JavaScript array stack. -/
def floodStep (width height tR tG tB : ℕ) (x y : ℕ) (rest : List (ℕ × ℕ))
    (st : FillState) : FillState :=
  let idx := y * width + x
  if st.visited idx then
    { st with stack := rest }
  else
    let visited' := fun i => if i = idx then true else st.visited i
    let px := st.data idx
    if matchColor tR tG tB px.r px.g px.b then
      let data' := fun i => if i = idx then white else st.data i
      -- The four guarded pushes, in source order `(x-1,y), (x+1,y), (x,y-1),
      -- (x,y+1)`; the stack is a head-is-top list, so the last push `(x,y+1)`
      -- ends up in front, exactly as with the JavaScript array stack.
      let newStack :=
        (if y < height - 1 ∧ visited' (idx + width) = false then [(x, y + 1)] else []) ++
        (if 0 < y ∧ visited' (idx - width) = false then [(x, y - 1)] else []) ++
        (if x < width - 1 ∧ visited' (idx + 1) = false then [(x + 1, y)] else []) ++
        (if 0 < x ∧ visited' (idx - 1) = false then [(x - 1, y)] else []) ++ rest
      { data := data', visited := visited', stack := newStack }
    else
      { st with visited := visited', stack := rest }

/-- The `while (stack.length > 0)` loop of `removeColorAt`, with explicit
fuel.  Returns `none` only if the fuel runs out before the stack empties;
`floodLoop_fuel_sound` shows the fuel chosen by `removeColorAt` always
suffices. -/
def floodLoop (width height tR tG tB : ℕ) : ℕ → FillState → Option FillState
  | fuel, st =>
    match st.stack with
    | [] => some st
    | (x, y) :: rest =>
      match fuel with
      | 0 => none
      | fuel + 1 =>
        floodLoop width height tR tG tB fuel (floodStep width height tR tG tB x y rest st)

/-- The seed pixel is near-white: `targetR > 240 && targetG > 240 && targetB > 240`. -/
def nearWhite (p : Pixel) : Prop := 240 < p.r ∧ 240 < p.g ∧ 240 < p.b

instance (p : Pixel) : Decidable (nearWhite p) := by unfold nearWhite; infer_instance

/-- The seed pixel is near-black: `targetR < 50 && targetG < 50 && targetB < 50`. -/
def nearBlack (p : Pixel) : Prop := p.r < 50 ∧ p.g < 50 ∧ p.b < 50

instance (p : Pixel) : Decidable (nearBlack p) := by unfold nearBlack; infer_instance

/-- The `removeColorAt(startX, startY)` color-wand flood fill of
App.tsx / ImageEditor.tsx, acting on a buffer of the given dimensions.
`none` models the early `return`s (out-of-bounds seed, near-white seed,
near-black seed): the canvas is not written and `saveState` is not called.
`some data'` models the successful path: `ctx.putImageData` writes `data'`
and `saveState()` runs.  The source floors the incoming coordinates
(`Math.floor(startX)`).  The while loop is run with fuel `1 + 4*width*height`,
which `floodLoop_fuel_sound` proves sufficient. -/
def removeColorAt (width height : ℕ) (data : Buffer) (startX startY : ℚ) : Option Buffer :=
  let sxI : ℤ := ⌊startX⌋
  let syI : ℤ := ⌊startY⌋
  if sxI < 0 ∨ (width : ℤ) ≤ sxI ∨ syI < 0 ∨ (height : ℤ) ≤ syI then none
  else
    let sx := sxI.toNat
    let sy := syI.toNat
    let startIndex := sy * width + sx
    let target := data startIndex
    if nearWhite target then none
    else if nearBlack target then none
    else
      match floodLoop width height target.r target.g target.b (1 + 4 * width * height)
          { data := data, visited := fun _ => false, stack := [(sx, sy)] } with
      | some fin => some fin.data
      | none => none

/-- Tools of the editor: the `tool` state of App.tsx is one of
`'wand' | 'eraser' | 'remove-text' | 'hand' | 'pipette' | 'text-box' | 'brush'`. -/
inductive Tool where
  | wand
  | eraser
  | removeText
  | hand
  | pipette
  | textBox
  | brush
deriving Repr, DecidableEq

/-- The mutable editor state of App.tsx that the claims are about: canvas
dimensions and pixel data, the undo history with its index, the active tool,
gesture flags and positions, and the view transform (scale and pan offset).
`manualBg` models the CSS string `manualBgColor` as a color value. -/
structure AppState where
  width : ℕ
  height : ℕ
  buffer : Buffer
  history : List Buffer
  historyIndex : ℤ
  tool : Tool
  prevTool : Tool
  isDrawing : Bool
  isPanning : Bool
  scale : ℚ
  panX : ℚ
  panY : ℚ
  lastPanX : ℚ
  lastPanY : ℚ
  lastTouchDistance : Option ℚ
  startX : ℚ
  startY : ℚ
  currentX : ℚ
  currentY : ℚ
  useManualColor : Bool
  manualBg : Pixel
  pendingTextBox : Option (ℚ × ℚ × ℚ × ℚ)
  isEnteringText : Bool
  isRotated : Bool

/-- The `saveState` of App.tsx: snapshot the canvas, truncate the history to
the entries up to the current index (`history.slice(0, historyIndex + 1)`),
append the snapshot, and point the index at the new last entry. -/
def saveState (st : AppState) : AppState :=
  let newHistory := st.history.take (st.historyIndex + 1).toNat ++ [st.buffer]
  { st with history := newHistory, historyIndex := (newHistory.length : ℤ) - 1 }

/-- The `undo` of App.tsx: if `historyIndex > 0`, decrement the index and
restore that snapshot with `putImageData`; otherwise do nothing.  The source
indexes `history[newIndex]` directly; under the history invariant the index
is always in range, so the `getD` default is never taken. -/
def undo (st : AppState) : AppState :=
  if 0 < st.historyIndex then
    let newIndex := st.historyIndex - 1
    { st with historyIndex := newIndex,
              buffer := st.history.getD newIndex.toNat st.buffer }
  else st

/-- The `redo` of App.tsx: if `historyIndex < history.length - 1`, increment
the index and restore that snapshot; otherwise do nothing. -/
def redo (st : AppState) : AppState :=
  if st.historyIndex < (st.history.length : ℤ) - 1 then
    let newIndex := st.historyIndex + 1
    { st with historyIndex := newIndex,
              buffer := st.history.getD newIndex.toNat st.buffer }
  else st

/-- A color-wand click at buffer position `(startX, startY)`: `removeColorAt`
either returns early (state untouched, no snapshot) or writes the filled data
back with `putImageData` and calls `saveState`. -/
def wandClick (st : AppState) (startX startY : ℚ) : AppState :=
  match removeColorAt st.width st.height st.buffer startX startY with
  | none => st
  | some data' => saveState { st with buffer := data' }

/-- The image-load effect of App.tsx: the canvas is sized to the image, the
image is drawn, and `saveState()` records the baseline snapshot.  At that
point `history = []` and `historyIndex = -1`, so the baseline history is
`[img]` with index `0`.  The remaining fields carry their `useState` initial
values from the source. -/
def loadImage (w h : ℕ) (img : Buffer) : AppState :=
  saveState
    { width := w, height := h, buffer := img,
      history := [], historyIndex := -1,
      tool := Tool.removeText, prevTool := Tool.removeText,
      isDrawing := false, isPanning := false,
      scale := 1, panX := 0, panY := 0, lastPanX := 0, lastPanY := 0,
      lastTouchDistance := none,
      startX := 0, startY := 0, currentX := 0, currentY := 0,
      useManualColor := false, manualBg := white,
      pendingTextBox := none, isEnteringText := false, isRotated := false }

/-- A committed tool operation, abstractly: some transformation of the pixel
buffer (the effect of the tool on the canvas) followed by the `saveState()`
call that every committing branch of the source performs. -/
def commitOp (f : Buffer → Buffer) (st : AppState) : AppState :=
  saveState { st with buffer := f st.buffer }

/-- JavaScript quantization key component `Math.round(c/5)*5` for a byte
channel `c`: `Math.round` rounds half up, so for nonnegative `c` this is
`⌊(c/5) + 1/2⌋ * 5 = ((2*c + 5) / 10) * 5` in natural division. -/
def quantize5 (c : ℕ) : ℕ := ((2 * c + 5) / 10) * 5

/-- Bucket key of a color in the background inference: the string key
interpolating the three quantized channels, modelled as the triple itself. -/
def bucketKey (p : Pixel) : ℕ × ℕ × ℕ := (quantize5 p.r, quantize5 p.g, quantize5 p.b)

/-- A sampled pixel is discarded as dark: `r < 80 && g < 80 && b < 80`. -/
def isDark (p : Pixel) : Prop := p.r < 80 ∧ p.g < 80 ∧ p.b < 80

instance (p : Pixel) : Decidable (isDark p) := by unfold isDark; infer_instance

/-- Accumulator of the background-inference scan: the per-bucket counters
(`colors[key].count` — the first-seen color also stored in each record is
never read again by the source, so only the counts are kept), the running
`maxCount`, and the current best color `bgR, bgG, bgB`. -/
structure SampleAcc where
  counts : ℕ × ℕ × ℕ → ℕ
  maxCount : ℕ
  bgR : ℕ
  bgG : ℕ
  bgB : ℕ

/-- Processing of one surviving (perimeter, non-dark) sample: bump the
color's bucket counter and, when the bumped count exceeds the running
maximum, record the current pixel's channels as the new best color. -/
def coreStep (acc : SampleAcc) (p : Pixel) : SampleAcc :=
  let key := bucketKey p
  let newCount := acc.counts key + 1
  let counts' := fun k => if k = key then newCount else acc.counts k
  if acc.maxCount < newCount then
    { counts := counts', maxCount := newCount, bgR := p.r, bgG := p.g, bgB := p.b }
  else
    { acc with counts := counts' }

/-- Body of the double sampling loop of the `remove-text` branch of
`handlePointerUp`, at the position `pos = (py, px)`: only pixels on the
outermost edge of the sample rectangle are considered, dark pixels are
skipped, the rest go through `coreStep`. -/
def samplePixelStep (sampleW sampleH : ℕ) (sampleData : Buffer)
    (acc : SampleAcc) (pos : ℕ × ℕ) : SampleAcc :=
  if pos.2 = 0 ∨ pos.2 = sampleW - 1 ∨ pos.1 = 0 ∨ pos.1 = sampleH - 1 then
    let p := sampleData (pos.1 * sampleW + pos.2)
    if isDark p then acc else coreStep acc p
  else acc

/-- Row-major scan order of the double loop
`for (py = 0; py < sampleH; py++) for (px = 0; px < sampleW; px++)`. -/
def scanPositions (sampleW sampleH : ℕ) : List (ℕ × ℕ) :=
  (List.range sampleH).flatMap fun py => (List.range sampleW).map fun px => (py, px)

/-- Initial accumulator: empty bucket table, `maxCount = 0`, default color
`bgR = 255, bgG = 255, bgB = 255`. -/
def initAcc : SampleAcc :=
  { counts := fun _ => 0, maxCount := 0, bgR := 255, bgG := 255, bgB := 255 }

/-- The inferred background color of the `remove-text` commit, from the
sampled rectangle (row-major `sampleW × sampleH` sub-image, as returned by
`getImageData`): run the sampling loop and read off the best color; the
resulting CSS color `rgb(bgR, bgG, bgB)` paints with full alpha. -/
def inferBgColor (sampleW sampleH : ℕ) (sampleData : Buffer) : Pixel :=
  let acc := (scanPositions sampleW sampleH).foldl
    (samplePixelStep sampleW sampleH sampleData) initAcc
  ⟨acc.bgR, acc.bgG, acc.bgB, 255⟩

/-- The surviving samples, in scan order: the colors of the outer-edge
pixels of the sample rectangle that are not discarded as dark.  This is the
sequence of pixels that actually reach `coreStep`. -/
def ringColors (sampleW sampleH : ℕ) (sampleData : Buffer) : List Pixel :=
  (((scanPositions sampleW sampleH).filter fun pos =>
      decide (pos.2 = 0 ∨ pos.2 = sampleW - 1 ∨ pos.1 = 0 ∨ pos.1 = sampleH - 1)).map
    fun pos => sampleData (pos.1 * sampleW + pos.2)).filter fun p => !decide (isDark p)

/-- Number of surviving samples falling in bucket `k`. -/
def bucketCount (cs : List Pixel) (k : ℕ × ℕ × ℕ) : ℕ :=
  cs.countP fun c => decide (bucketKey c = k)

/-- The claim's selection rule, written from the specification's words (for
comparison with `inferBgColor`): the fill color is the first color seen, in
scan order, whose bucket is most populous — equivalently, the first surviving
sample whose bucket's total count equals the maximum bucket count (this also
realizes the spec's tie-break "by scan order" between equally-populous
buckets). -/
def specInferBgColor (sampleW sampleH : ℕ) (sampleData : Buffer) : Pixel :=
  let cs := ringColors sampleW sampleH sampleData
  let m := (cs.map fun c => bucketCount cs (bucketKey c)).foldr max 0
  match cs.find? fun c => decide (bucketCount cs (bucketKey c) = m) with
  | some c => ⟨c.r, c.g, c.b, 255⟩
  | none => white

/-- Invariant of the background-inference fold after processing the prefix
`p` of surviving samples: the bucket table counts `p`'s buckets, the running
maximum is zero on the empty prefix, and otherwise the best color is the
sample at the first position `j` where some bucket's running count reached
the current maximum, that maximum being the count of `j`'s bucket within the
prefix up to `j` and an upper bound for every bucket count of `p`. -/
def AccInv (p : List Pixel) (acc : SampleAcc) : Prop :=
  (∀ k, acc.counts k = bucketCount p k) ∧
  (p = [] → acc.maxCount = 0) ∧
  (p ≠ [] → ∃ j : Fin p.length,
    acc.bgR = (p.get j).r ∧ acc.bgG = (p.get j).g ∧ acc.bgB = (p.get j).b ∧
    acc.maxCount = bucketCount (p.take (j + 1)) (bucketKey (p.get j)) ∧
    (∀ k, bucketCount p k ≤ acc.maxCount) ∧
    (∀ i : ℕ, i < j → ∀ k, bucketCount (p.take (i + 1)) k < acc.maxCount))

/-- The `getImageData(sx, sy, sw, sh)` copy: a row-major `sw`-wide sub-image
of the canvas, read at offset `(sx, sy)`. -/
def subImage (buf : Buffer) (width sx sy sw : ℕ) : Buffer :=
  fun i => buf ((sy + i / sw) * width + (sx + i % sw))

/-- The geometry returned by `canvas.getBoundingClientRect()`: the client
coordinates of the displayed canvas and its display size. -/
structure CanvasRect where
  left : ℚ
  top : ℚ
  right : ℚ
  width : ℚ
  height : ℚ

/-- The `getMousePos` conversion of App.tsx / ImageEditor.tsx from client
(screen) coordinates to buffer coordinates.  `canvasW, canvasH` are the
buffer dimensions (`canvas.width/height`); `rect` is the displayed bounding
rectangle.  Rotated mode swaps the axes and mirrors one of them. -/
def getMousePos (isRotated : Bool) (canvasW canvasH : ℕ) (rect : CanvasRect)
    (clientX clientY : ℚ) : ℚ × ℚ :=
  if isRotated then
    ((clientY - rect.top) * (canvasW / rect.height),
     (rect.right - clientX) * (canvasH / rect.width))
  else
    ((clientX - rect.left) * (canvasW / rect.width),
     (clientY - rect.top) * (canvasH / rect.height))

/-- The claim's formula for the rotated-mode buffer x coordinate:
`(clientY - canvasTop) * (bufferWidth / displayHeight)`. -/
def rotatedSpecX (canvasW : ℕ) (rect : CanvasRect) (clientY : ℚ) : ℚ :=
  (clientY - rect.top) * (canvasW / rect.height)

/-- The claim's formula for the rotated-mode buffer y coordinate:
`(canvasRight - clientX) * (bufferHeight / displayWidth)`. -/
def rotatedSpecY (canvasH : ℕ) (rect : CanvasRect) (clientX : ℚ) : ℚ :=
  (rect.right - clientX) * (canvasH / rect.width)

/-- The clamped sample rectangle `(sampleX, sampleY, sampleW, sampleH)` of
the `remove-text` branch: 2px outside the selection, clamped to the buffer
(`Math.max(0, ...)` at the low edges, `Math.min(canvas.width - sampleX, ...)`
for the extent). -/
def sampleRect (width height : ℕ) (x y w h : ℚ) : ℚ × ℚ × ℚ × ℚ :=
  let sampleX := max 0 (x - 2)
  let sampleY := max 0 (y - 2)
  let sampleW := min ((width : ℚ) - sampleX) (w + 2 * 2)
  let sampleH := min ((height : ℚ) - sampleY) (h + 2 * 2)
  (sampleX, sampleY, sampleW, sampleH)

/-- The `handleWheel` of App.tsx.  `ctrlOrMeta`, `shiftKey`, `deltaX`,
`deltaY` come from the wheel event.  `factor` stands for the transcendental
`Math.pow(1.1, -deltaY / 100)` (not expressible in rational arithmetic; every
theorem below holds for all its values), and `mouseX, mouseY` for the
pointer offset from the container center
(`e.clientX - rect.left - rect.width / 2`, similarly for y). -/
def handleWheel (st : AppState) (ctrlOrMeta shiftKey : Bool) (deltaX deltaY : ℚ)
    (factor : ℚ) (mouseX mouseY : ℚ) : AppState :=
  if ctrlOrMeta then
    let newScale := min (max 0.1 (st.scale * factor)) 10
    if newScale ≠ st.scale then
      let scaleRatio := newScale / st.scale
      { st with panX := mouseX - (mouseX - st.panX) * scaleRatio,
                panY := mouseY - (mouseY - st.panY) * scaleRatio,
                scale := newScale }
    else st
  else
    let dx := if shiftKey = true ∧ deltaX = 0 then deltaY else deltaX
    let dy := if shiftKey = true ∧ deltaX = 0 then 0 else deltaY
    if st.isRotated then
      { st with panX := st.panX - dy, panY := st.panY + dx }
    else
      { st with panX := st.panX - dx, panY := st.panY - dy }

/-- The hand-tool / middle-button branch of `handlePointerDown`: start
panning and remember the pointer position. -/
def panPointerDown (st : AppState) (clientX clientY : ℚ) : AppState :=
  { st with isPanning := true, lastPanX := clientX, lastPanY := clientY }

/-- The two-finger branch of `handlePointerDown`: stop drawing, start
panning, remember the touch distance and midpoint.  `dist` stands for
`Math.hypot` of the two touch deltas, `midX, midY` for the midpoint. -/
def pinchPointerDown (st : AppState) (dist midX midY : ℚ) : AppState :=
  { st with isDrawing := false, isPanning := true,
            lastTouchDistance := some dist, lastPanX := midX, lastPanY := midY }

/-- The `isPanning` branch of `handlePointerMove`: translate the pan offset
by the pointer delta and remember the new position. -/
def panPointerMove (st : AppState) (clientX clientY : ℚ) : AppState :=
  { st with panX := st.panX + (clientX - st.lastPanX),
            panY := st.panY + (clientY - st.lastPanY),
            lastPanX := clientX, lastPanY := clientY }

/-- The two-finger branch of `handlePointerMove` (runs only when
`lastTouchDistance !== null`): scale by the distance ratio, clamped to
`[0.1, 5]`, and pan by the midpoint delta.  `dist` stands for the
`Math.hypot` touch distance, `midX, midY` for the midpoint. -/
def pinchPointerMove (st : AppState) (dist midX midY : ℚ) : AppState :=
  match st.lastTouchDistance with
  | none => st
  | some last =>
    let delta := dist / last
    { st with scale := min (max 0.1 (st.scale * delta)) 5,
              lastTouchDistance := some dist,
              panX := st.panX + (midX - st.lastPanX),
              panY := st.panY + (midY - st.lastPanY),
              lastPanX := midX, lastPanY := midY }

/-- Keyboard zoom in (`ctrl/cmd` + `+`): `setScale(s => Math.min(10, s + 0.2))`. -/
def keyZoomIn (st : AppState) : AppState :=
  { st with scale := min 10 (st.scale + 0.2) }

/-- Keyboard zoom out (`ctrl/cmd` + `-`): `setScale(s => Math.max(0.1, s - 0.2))`. -/
def keyZoomOut (st : AppState) : AppState :=
  { st with scale := max 0.1 (st.scale - 0.2) }

/-- The `resetView` of App.tsx (keyboard `ctrl/cmd` + `0` and the reset
button): pan back to the origin and scale to the fit-to-container value.
`containerW, containerH` are the container client sizes; `hasContainer`
models `containerRef.current` being available. -/
def resetView (st : AppState) (imageLoaded hasContainer : Bool)
    (containerW containerH imgW imgH : ℚ) : AppState :=
  let st := { st with panX := 0, panY := 0 }
  if hasContainer = true ∧ imageLoaded = true then
    let cw := containerW - 40
    let ch := containerH - 40
    let availW := if st.isRotated then ch else cw
    let availH := if st.isRotated then cw else ch
    let fitScale := min (min (availW / imgW) (availH / imgH)) 1
    { st with scale := fitScale }
  else
    { st with scale := 1 }

/-- The `handlePointerUp` of App.tsx.  `fill b x y w h c` stands for the
canvas primitive `ctx.fillRect(x, y, w, h)` with fill style `c` acting on
raster `b` (an external canvas collaborator; no claim depends on its
pixel-level output).  The remove-text branch converts the rational sample
rectangle to the integers handed to `getImageData` by flooring (WebIDL
integer coercion; the sample rectangle is nonnegative whenever the selection
is inside the canvas). -/
def handlePointerUp (fill : Buffer → ℚ → ℚ → ℚ → ℚ → Pixel → Buffer)
    (st : AppState) : AppState :=
  let st := { st with lastTouchDistance := none }
  if st.isPanning then { st with isPanning := false }
  else if st.isDrawing = false then st
  else
    let st := { st with isDrawing := false }
    let x := min st.startX st.currentX
    let y := min st.startY st.currentY
    let w := |st.currentX - st.startX|
    let h := |st.currentY - st.startY|
    if w = 0 ∨ h = 0 then st
    else
      match st.tool with
      | Tool.eraser =>
        saveState { st with buffer := fill st.buffer x y w h white }
      | Tool.brush =>
        saveState st
      | Tool.textBox =>
        { st with pendingTextBox := some (x, y, w, h), isEnteringText := true }
      | Tool.removeText =>
        let finalBg :=
          if st.useManualColor then st.manualBg
          else
            let r := sampleRect st.width st.height x y w h
            let sXn := (⌊r.1⌋).toNat
            let sYn := (⌊r.2.1⌋).toNat
            let sWn := (⌊r.2.2.1⌋).toNat
            let sHn := (⌊r.2.2.2⌋).toNat
            inferBgColor sWn sHn (subImage st.buffer st.width sXn sYn sWn)
        saveState { st with buffer := fill st.buffer x y w h finalBg }
      | _ => st

/-! ### Reachability vocabulary for the flood-fill claims

The following definitions state, independently of the traversal, which region
the specification says the color wand fills: the 4-connected set of in-bounds
pixels reachable from the seed through pixels whose color matches the seed
color.  They are used only in theorem statements and proofs about
`removeColorAt`. -/

/-- Two pixel positions are 4-connected neighbours. -/
def adjacent (p q : ℕ × ℕ) : Prop :=
  (q.1 = p.1 + 1 ∧ q.2 = p.2) ∨ (p.1 = q.1 + 1 ∧ q.2 = p.2) ∨
  (q.2 = p.2 + 1 ∧ q.1 = p.1) ∨ (p.2 = q.2 + 1 ∧ q.1 = p.1)

/-- A position lies inside the buffer. -/
def inB (W H : ℕ) (p : ℕ × ℕ) : Prop := p.1 < W ∧ p.2 < H

instance (W H : ℕ) (p : ℕ × ℕ) : Decidable (inB W H p) := by unfold inB; infer_instance

/-- Flat row-major index of a position, `idx = y * width + x`. -/
def enc (W : ℕ) (p : ℕ × ℕ) : ℕ := p.2 * W + p.1

/-- The pixel at flat index `i` of `orig` matches the target color within the
tolerance (Euclidean RGB distance below 40). -/
def matchesAt (orig : Buffer) (tR tG tB i : ℕ) : Prop :=
  matchColor tR tG tB (orig i).r (orig i).g (orig i).b = true

instance (orig : Buffer) (tR tG tB i : ℕ) : Decidable (matchesAt orig tR tG tB i) := by
  unfold matchesAt; infer_instance

/-- One step of region growth: `q` is an in-bounds, matching 4-neighbour of
`p` (matching w.r.t. the original buffer contents). -/
def fillAdj (W H : ℕ) (orig : Buffer) (tR tG tB : ℕ) (p q : ℕ × ℕ) : Prop :=
  adjacent p q ∧ inB W H q ∧ matchesAt orig tR tG tB (enc W q)

/-- The region the specification describes: positions reachable from the
seed through matching pixels, by 4-connected steps. -/
def reaches (W H : ℕ) (orig : Buffer) (tR tG tB : ℕ) (seed q : ℕ × ℕ) : Prop :=
  Relation.ReflTransGen (fillAdj W H orig tR tG tB) seed q

/-- A position that can legitimately appear on the traversal stack: the seed
itself, or a neighbour of some reached matching pixel (pushed neighbours need
not match — they are popped, marked visited, and left unchanged). -/
def candidate (W H : ℕ) (orig : Buffer) (tR tG tB : ℕ) (seed q : ℕ × ℕ) : Prop :=
  q = seed ∨ ∃ p, reaches W H orig tR tG tB seed p ∧ adjacent p q

/-- Number of in-bounds flat indices not yet marked in the visited bitmap;
the termination measure of the traversal decreases with it. -/
def unvisitedCount (W H : ℕ) (v : ℕ → Bool) : ℕ :=
  ((Finset.range (W * H)).filter fun i => v i = false).card

/-- Loop invariant of the flood-fill traversal, relating a `FillState` to the
original buffer `orig`, the seed, and the target color:
1. the data equals `orig` overwritten with white exactly at visited matching
   indices;
2. every visited index is the code of an in-bounds candidate position;
3. every stack entry is an in-bounds candidate position;
4. every in-bounds, visited, matching position has each of its in-bounds
   neighbours visited or on the stack (the frontier is on the stack);
5. the seed is visited or on the stack. -/
def FloodInv (W H : ℕ) (orig : Buffer) (tR tG tB : ℕ) (seed : ℕ × ℕ)
    (st : FillState) : Prop :=
  (∀ i, st.data i =
      if st.visited i = true ∧ matchesAt orig tR tG tB i then white else orig i) ∧
  (∀ i, st.visited i = true →
      ∃ p, inB W H p ∧ i = enc W p ∧ candidate W H orig tR tG tB seed p) ∧
  (∀ q ∈ st.stack, inB W H q ∧ candidate W H orig tR tG tB seed q) ∧
  (∀ p, inB W H p → st.visited (enc W p) = true → matchesAt orig tR tG tB (enc W p) →
      ∀ q, adjacent p q → inB W H q →
        st.visited (enc W q) = true ∨ q ∈ st.stack) ∧
  (st.visited (enc W seed) = true ∨ seed ∈ st.stack)

/-- Invariant of an editing session that has only committed operations (no
undo in between): the baseline snapshot is the first history entry, the index
points at the last entry, and the buffer equals the last snapshot. -/
def HistInv (img : Buffer) (st : AppState) : Prop :=
  ∃ l, st.history = img :: l ∧ st.historyIndex = (l.length : ℤ) ∧
    st.buffer = (img :: l).getD l.length img

/-! ### Concrete example inputs

Small concrete buffers, states and geometries used by the witness and
counterexample theorems at the end of the file. -/

/-- A fully opaque pixel with the given RGB channels. -/
def exPix (r g b : ℕ) : Pixel := ⟨r, g, b, 255⟩

/-- A finite buffer given by a list of pixels in row-major order (white
beyond the end). -/
def exBuf (l : List Pixel) : Buffer := fun i => l.getD i white

/-- A 2×1 buffer whose two pixels are within RGB distance 40 of each other:
the seed `(100,100,100)` and its right neighbour `(130,100,100)`. -/
def exBufPair : Buffer := exBuf [exPix 100 100 100, exPix 130 100 100]

/-- A 3×1 sample rectangle exposing the background-inference selection rule:
two colors in the same quantization bucket (`(100,100,100)` then
`(102,102,102)`) followed by a dark pixel that is discarded. -/
def exBufSample : Buffer := exBuf [exPix 100 100 100, exPix 102 102 102, exPix 10 10 10]

/-- A concrete editor state: a 2×1 near-white canvas with empty history and
the source's initial flags. -/
def exState : AppState :=
  { width := 2, height := 1,
    buffer := exBuf [exPix 250 250 250, exPix 250 250 250],
    history := [], historyIndex := -1,
    tool := Tool.removeText, prevTool := Tool.removeText,
    isDrawing := false, isPanning := false,
    scale := 1, panX := 0, panY := 0, lastPanX := 0, lastPanY := 0,
    lastTouchDistance := none,
    startX := 0, startY := 0, currentX := 0, currentY := 0,
    useManualColor := false, manualBg := white,
    pendingTextBox := none, isEnteringText := false, isRotated := false }

/-- The state `exState` after one committed operation and one undo: two
history entries with the index back at position 0. -/
def exStateTwo : AppState :=
  { exState with history := [exState.buffer, exState.buffer], historyIndex := 0 }

/-- A pointer-up state reached by a perfectly vertical freehand-brush
stroke: the gesture ran from `(10, 20)` to `(10, 35)`, so the spanned
rectangle has width 0.  Points were painted during the move phase (the brush
paints continuously while dragging). -/
def exStateBrush : AppState :=
  { exState with
    tool := Tool.brush
    isDrawing := true
    startX := 10
    startY := 20
    currentX := 10
    currentY := 35 }

/-- A trivial canvas fill primitive (used to instantiate the `fill`
collaborator of `handlePointerUp` in concrete witnesses; the statements hold
for every such primitive). -/
def fillId : Buffer → ℚ → ℚ → ℚ → ℚ → Pixel → Buffer := fun b _ _ _ _ _ => b

/-- A concrete canvas geometry: a 100×100 buffer displayed at 50×50 CSS
pixels with its top-left corner at the client origin. -/
def exRect : CanvasRect := { left := 0, top := 0, right := 50, width := 50, height := 50 }

/-! ### Supporting lemmas -/

/-- Row-major flat indexing is injective on in-bounds positions. -/
theorem enc_inj {W H : ℕ} {p q : ℕ × ℕ} (hp : inB W H p) (hq : inB W H q)
    (h : enc W p = enc W q) : p = q := by
  obtain ⟨px, py⟩ := p
  obtain ⟨qx, qy⟩ := q
  have hp1 : px < W := hp.1
  have hq1 : qx < W := hq.1
  have h' : py * W + px = qy * W + qx := h
  have hW : 0 < W := by omega
  have e1 : px = (py * W + px) % W := by
    rw [mul_comm py W, Nat.mul_add_mod, Nat.mod_eq_of_lt hp1]
  have e2 : py = (py * W + px) / W := by
    rw [mul_comm py W, Nat.mul_add_div hW, Nat.div_eq_of_lt hp1, Nat.add_zero]
  have f1 : qx = (qy * W + qx) % W := by
    rw [mul_comm qy W, Nat.mul_add_mod, Nat.mod_eq_of_lt hq1]
  have f2 : qy = (qy * W + qx) / W := by
    rw [mul_comm qy W, Nat.mul_add_div hW, Nat.div_eq_of_lt hq1, Nat.add_zero]
  have hx : px = qx := by rw [e1, f1, h']
  have hy : py = qy := by rw [e2, f2, h']
  rw [hx, hy]

/-- A color always matches itself: the distance is zero. -/
theorem matchColor_self (r g b : ℕ) : matchColor r g b r g b = true := by
  simp [matchColor]

/-- Marking one unvisited in-bounds index decreases the number of unvisited
in-bounds indices by exactly one. -/
theorem unvisitedCount_update {W H idx : ℕ} (v : ℕ → Bool)
    (hidx : idx < W * H) (hun : v idx = false) :
    unvisitedCount W H (fun i => if i = idx then true else v i) =
      unvisitedCount W H v - 1 ∧ 1 ≤ unvisitedCount W H v := by
  have hmem : idx ∈ (Finset.range (W * H)).filter (fun i => v i = false) := by
    simp [Finset.mem_filter, Finset.mem_range, hidx, hun]
  constructor
  · unfold unvisitedCount
    have : ((Finset.range (W * H)).filter fun i => (if i = idx then true else v i) = false) =
        ((Finset.range (W * H)).filter fun i => v i = false).erase idx := by
      ext j
      by_cases hj : j = idx <;>
        simp [Finset.mem_filter, Finset.mem_erase, Finset.mem_range, hj, hun]
    rw [this, Finset.card_erase_of_mem hmem]
  · exact Finset.card_pos.mpr ⟨idx, hmem⟩

/-- Every reached position is in bounds (given an in-bounds seed). -/
theorem reaches_inB {W H : ℕ} {orig : Buffer} {tR tG tB : ℕ} {seed q : ℕ × ℕ}
    (hseed : inB W H seed) (h : reaches W H orig tR tG tB seed q) : inB W H q := by
  induction h with
  | refl => exact hseed
  | tail _ hstep ih => exact hstep.2.1

/-- Every reached position matches (given a matching seed). -/
theorem reaches_matchesAt {W H : ℕ} {orig : Buffer} {tR tG tB : ℕ} {seed q : ℕ × ℕ}
    (hseed : matchesAt orig tR tG tB (enc W seed))
    (h : reaches W H orig tR tG tB seed q) : matchesAt orig tR tG tB (enc W q) := by
  induction h with
  | refl => exact hseed
  | tail _ hstep _ => exact hstep.2.2

/-- A matching in-bounds candidate is reached. -/
theorem candidate_reaches {W H : ℕ} {orig : Buffer} {tR tG tB : ℕ} {seed q : ℕ × ℕ}
    (hc : candidate W H orig tR tG tB seed q) (hq : inB W H q)
    (hm : matchesAt orig tR tG tB (enc W q)) : reaches W H orig tR tG tB seed q := by
  rcases hc with rfl | ⟨p, hp, hadj⟩
  · exact Relation.ReflTransGen.refl
  · exact hp.tail ⟨hadj, hq, hm⟩

/-- In-bounds positions have in-range flat indices. -/
theorem enc_lt {W H : ℕ} {p : ℕ × ℕ} (hp : inB W H p) : enc W p < W * H := by
  obtain ⟨px, py⟩ := p
  have h1 : px < W := hp.1
  have h2 : py < H := hp.2
  calc py * W + px < py * W + W := by omega
    _ = (py + 1) * W := by ring
    _ ≤ H * W := mul_le_mul_right' (by omega) W
    _ = W * H := Nat.mul_comm H W

/-- Popping an already-visited entry preserves the invariant and shrinks the
measure. -/
theorem floodStep_inv_visited {W H : ℕ} {orig : Buffer} {tR tG tB : ℕ}
    {seed : ℕ × ℕ} {x y : ℕ} {rest : List (ℕ × ℕ)} {st : FillState}
    (hstack : st.stack = (x, y) :: rest)
    (hinv : FloodInv W H orig tR tG tB seed st)
    (hv : st.visited (y * W + x) = true) :
    FloodInv W H orig tR tG tB seed (floodStep W H tR tG tB x y rest st) ∧
    (floodStep W H tR tG tB x y rest st).stack.length + 1 +
        4 * unvisitedCount W H (floodStep W H tR tG tB x y rest st).visited ≤
      st.stack.length + 4 * unvisitedCount W H st.visited := by
  obtain ⟨hdata, hvb, hstk, hfront, hseed⟩ := hinv
  have hstep : floodStep W H tR tG tB x y rest st = { st with stack := rest } := by
    simp [floodStep, hv]
  rw [hstep]
  refine ⟨⟨hdata, hvb, ?_, ?_, ?_⟩, ?_⟩
  · intro q hq
    exact hstk q (by rw [hstack]; exact List.mem_cons_of_mem _ hq)
  · intro p hpB hpv hpm q hadj hqB
    rcases hfront p hpB hpv hpm q hadj hqB with h | h
    · exact Or.inl h
    · rw [hstack] at h
      rcases List.mem_cons.mp h with rfl | h
      · exact Or.inl hv
      · exact Or.inr h
  · rcases hseed with h | h
    · exact Or.inl h
    · rw [hstack] at h
      rcases List.mem_cons.mp h with rfl | h
      · exact Or.inl hv
      · exact Or.inr h
  · rw [hstack]
    simp only [List.length_cons]
    omega

/-- Popping an unvisited, non-matching entry preserves the invariant and
shrinks the measure: the pixel is only marked visited. -/
theorem floodStep_inv_nomatch {W H : ℕ} {orig : Buffer} {tR tG tB : ℕ}
    {seed : ℕ × ℕ} {x y : ℕ} {rest : List (ℕ × ℕ)} {st : FillState}
    (hstack : st.stack = (x, y) :: rest)
    (hinv : FloodInv W H orig tR tG tB seed st)
    (hv : st.visited (y * W + x) = false)
    (hm : ¬ matchesAt orig tR tG tB (y * W + x)) :
    FloodInv W H orig tR tG tB seed (floodStep W H tR tG tB x y rest st) ∧
    (floodStep W H tR tG tB x y rest st).stack.length + 1 +
        4 * unvisitedCount W H (floodStep W H tR tG tB x y rest st).visited ≤
      st.stack.length + 4 * unvisitedCount W H st.visited := by
  obtain ⟨hdata, hvb, hstk, hfront, hseed⟩ := hinv
  have hhead : (x, y) ∈ st.stack := by rw [hstack]; exact List.mem_cons_self _ _
  obtain ⟨hxyB, hxyC⟩ := hstk _ hhead
  have hdorig : st.data (y * W + x) = orig (y * W + x) := by rw [hdata]; simp [hv]
  have hm2 : matchColor tR tG tB (st.data (y * W + x)).r (st.data (y * W + x)).g
      (st.data (y * W + x)).b = false := by
    rw [hdorig]
    unfold matchesAt at hm
    exact Bool.eq_false_iff.mpr hm
  have hstep : floodStep W H tR tG tB x y rest st =
      { data := st.data,
        visited := fun i => if i = y * W + x then true else st.visited i,
        stack := rest } := by
    simp [floodStep, hv, hm2]
  have hidxlt : y * W + x < W * H := enc_lt hxyB
  have hcount := unvisitedCount_update (W := W) (H := H) st.visited hidxlt hv
  obtain ⟨hc1, hc2⟩ := hcount
  rw [hstep]
  refine ⟨⟨?_, ?_, ?_, ?_, ?_⟩, ?_⟩
  · intro i
    dsimp only
    by_cases hi : i = y * W + x
    · subst hi
      simp [hm, hdorig]
    · simp only [if_neg hi]
      exact hdata i
  · intro i hvi
    dsimp only at hvi
    by_cases hi : i = y * W + x
    · exact ⟨(x, y), hxyB, hi, hxyC⟩
    · rw [if_neg hi] at hvi
      exact hvb i hvi
  · intro q hq
    exact hstk q (by rw [hstack]; exact List.mem_cons_of_mem _ hq)
  · intro p hpB hpv hpm q hadj hqB
    dsimp only at hpv ⊢
    by_cases hpi : enc W p = y * W + x
    · have : p = (x, y) := enc_inj hpB hxyB hpi
      rw [this] at hpm
      exact absurd hpm hm
    · rw [if_neg hpi] at hpv
      rcases hfront p hpB hpv hpm q hadj hqB with h | h
      · left
        by_cases hqi : enc W q = y * W + x
        · rw [if_pos hqi]
        · rw [if_neg hqi]; exact h
      · rw [hstack] at h
        rcases List.mem_cons.mp h with rfl | h
        · left
          simp [enc]
        · exact Or.inr h
  · dsimp only
    rcases hseed with h | h
    · left
      by_cases hsi : enc W seed = y * W + x
      · rw [if_pos hsi]
      · rw [if_neg hsi]; exact h
    · rw [hstack] at h
      rcases List.mem_cons.mp h with rfl | h
      · left
        simp [enc]
      · exact Or.inr h
  · rw [hstack]
    dsimp only
    rw [hc1]
    simp only [List.length_cons]
    omega

/-- Membership in the four-guarded-pushes stack shape of `floodStep`. -/
theorem mem_pushStack {α : Type} {c1 c2 c3 c4 : Prop}
    [Decidable c1] [Decidable c2] [Decidable c3] [Decidable c4]
    {a1 a2 a3 a4 : α} {rest : List α} {q : α} :
    q ∈ (if c1 then [a1] else []) ++ (if c2 then [a2] else []) ++
        (if c3 then [a3] else []) ++ (if c4 then [a4] else []) ++ rest ↔
      (c1 ∧ q = a1) ∨ (c2 ∧ q = a2) ∨ (c3 ∧ q = a3) ∨ (c4 ∧ q = a4) ∨ q ∈ rest := by
  split_ifs <;> simp_all

/-- The four guarded pushes grow the stack by at most four entries. -/
theorem length_pushStack {α : Type} (c1 c2 c3 c4 : Prop)
    [Decidable c1] [Decidable c2] [Decidable c3] [Decidable c4]
    (a1 a2 a3 a4 : α) (rest : List α) :
    ((if c1 then [a1] else []) ++ (if c2 then [a2] else []) ++
        (if c3 then [a3] else []) ++ (if c4 then [a4] else []) ++ rest).length ≤
      rest.length + 4 := by
  split_ifs <;> simp

/-- Popping an unvisited, matching entry preserves the invariant and shrinks
the measure: the pixel is marked visited and painted white, and its
unvisited in-bounds neighbours are pushed. -/
theorem floodStep_inv_match {W H : ℕ} {orig : Buffer} {tR tG tB : ℕ}
    {seed : ℕ × ℕ} {x y : ℕ} {rest : List (ℕ × ℕ)} {st : FillState}
    (hstack : st.stack = (x, y) :: rest)
    (hinv : FloodInv W H orig tR tG tB seed st)
    (hv : st.visited (y * W + x) = false)
    (hm : matchesAt orig tR tG tB (y * W + x)) :
    FloodInv W H orig tR tG tB seed (floodStep W H tR tG tB x y rest st) ∧
    (floodStep W H tR tG tB x y rest st).stack.length + 1 +
        4 * unvisitedCount W H (floodStep W H tR tG tB x y rest st).visited ≤
      st.stack.length + 4 * unvisitedCount W H st.visited := by
  obtain ⟨hdata, hvb, hstk, hfront, hseed⟩ := hinv
  have hhead : (x, y) ∈ st.stack := by rw [hstack]; exact List.mem_cons_self _ _
  obtain ⟨hxyB, hxyC⟩ := hstk _ hhead
  have hW : 0 < W := by have := hxyB.1; omega
  have hdorig : st.data (y * W + x) = orig (y * W + x) := by rw [hdata]; simp [hv]
  have hm2 : matchColor tR tG tB (st.data (y * W + x)).r (st.data (y * W + x)).g
      (st.data (y * W + x)).b = true := by rw [hdorig]; exact hm
  have hreach : reaches W H orig tR tG tB seed (x, y) := candidate_reaches hxyC hxyB hm
  have hstep : floodStep W H tR tG tB x y rest st =
      { data := fun i => if i = y * W + x then white else st.data i,
        visited := fun i => if i = y * W + x then true else st.visited i,
        stack :=
          (if y < H - 1 ∧
              (if y * W + x + W = y * W + x then true else st.visited (y * W + x + W)) = false
            then [(x, y + 1)] else []) ++
          (if 0 < y ∧
              (if y * W + x - W = y * W + x then true else st.visited (y * W + x - W)) = false
            then [(x, y - 1)] else []) ++
          (if x < W - 1 ∧
              (if y * W + x + 1 = y * W + x then true else st.visited (y * W + x + 1)) = false
            then [(x + 1, y)] else []) ++
          (if 0 < x ∧
              (if y * W + x - 1 = y * W + x then true else st.visited (y * W + x - 1)) = false
            then [(x - 1, y)] else []) ++ rest } := by
    simp [floodStep, hv, hm2]
  have hidxlt : y * W + x < W * H := enc_lt hxyB
  have hcount := unvisitedCount_update (W := W) (H := H) st.visited hidxlt hv
  obtain ⟨hc1, hc2⟩ := hcount
  rw [hstep]
  refine ⟨⟨?_, ?_, ?_, ?_, ?_⟩, ?_⟩
  · intro i
    dsimp only
    by_cases hi : i = y * W + x
    · subst hi
      simp [hm]
    · simp only [if_neg hi]
      exact hdata i
  · intro i hvi
    dsimp only at hvi
    by_cases hi : i = y * W + x
    · exact ⟨(x, y), hxyB, hi, hxyC⟩
    · rw [if_neg hi] at hvi
      exact hvb i hvi
  · intro q hq
    dsimp only at hq
    rcases mem_pushStack.mp hq with ⟨⟨hg, -⟩, rfl⟩ | ⟨⟨hg, -⟩, rfl⟩ | ⟨⟨hg, -⟩, rfl⟩ |
      ⟨⟨hg, -⟩, rfl⟩ | hq'
    · exact ⟨⟨hxyB.1, by omega⟩, Or.inr ⟨(x, y), hreach, Or.inr (Or.inr (Or.inl ⟨rfl, rfl⟩))⟩⟩
    · exact ⟨⟨hxyB.1, by have := hxyB.2; omega⟩,
        Or.inr ⟨(x, y), hreach, Or.inr (Or.inr (Or.inr ⟨by omega, rfl⟩))⟩⟩
    · exact ⟨⟨by omega, hxyB.2⟩, Or.inr ⟨(x, y), hreach, Or.inl ⟨rfl, rfl⟩⟩⟩
    · exact ⟨⟨by have := hxyB.1; omega, hxyB.2⟩,
        Or.inr ⟨(x, y), hreach, Or.inr (Or.inl ⟨by omega, rfl⟩)⟩⟩
    · exact hstk q (by rw [hstack]; exact List.mem_cons_of_mem _ hq')
  · intro p hpB hpv hpm q hadj hqB
    dsimp only at hpv ⊢
    by_cases hpi : enc W p = y * W + x
    · -- the newly visited pixel: its in-bounds neighbours are visited or pushed
      have hpxy : p = (x, y) := enc_inj hpB hxyB hpi
      subst hpxy
      obtain ⟨qx, qy⟩ := q
      rcases hadj with ⟨h1, h2⟩ | ⟨h1, h2⟩ | ⟨h1, h2⟩ | ⟨h1, h2⟩
      · -- right neighbour (x+1, y)
        dsimp only at h1 h2
        have h2' : y = qy := h2.symm
        subst h2'
        subst h1
        have henc : enc W (x + 1, y) = y * W + x + 1 := by simp only [enc]; omega
        by_cases hvq : st.visited (y * W + x + 1) = true
        · left
          rw [henc, if_neg (by omega)]
          exact hvq
        · right
          refine mem_pushStack.mpr (Or.inr (Or.inr (Or.inl ⟨⟨?_, ?_⟩, rfl⟩)))
          · have := hqB.1; omega
          · rw [if_neg (by omega)]
            exact Bool.eq_false_iff.mpr hvq
      · -- left neighbour (x-1, y)
        dsimp only at h1 h2
        have h2' : y = qy := h2.symm
        subst h2'
        have hqx : qx = x - 1 := by omega
        subst hqx
        have henc : enc W (x - 1, y) = y * W + x - 1 := by simp only [enc]; omega
        by_cases hvq : st.visited (y * W + x - 1) = true
        · left
          rw [henc, if_neg (by omega)]
          exact hvq
        · right
          refine mem_pushStack.mpr (Or.inr (Or.inr (Or.inr (Or.inl ⟨⟨?_, ?_⟩, rfl⟩))))
          · omega
          · rw [if_neg (by omega)]
            exact Bool.eq_false_iff.mpr hvq
      · -- down neighbour (x, y+1)
        dsimp only at h1 h2
        have h2' : x = qx := h2.symm
        subst h2'
        subst h1
        have henc : enc W (x, y + 1) = y * W + x + W := by
          simp only [enc]
          ring
        by_cases hvq : st.visited (y * W + x + W) = true
        · left
          rw [henc, if_neg (by omega)]
          exact hvq
        · right
          refine mem_pushStack.mpr (Or.inl ⟨⟨?_, ?_⟩, rfl⟩)
          · have := hqB.2; omega
          · rw [if_neg (by omega)]
            exact Bool.eq_false_iff.mpr hvq
      · -- up neighbour (x, y-1)
        dsimp only at h1 h2
        have h2' : x = qx := h2.symm
        subst h2'
        have hy1 : 1 ≤ y := by omega
        have hq2 : qy = y - 1 := by omega
        subst hq2
        have hyW : y * W = (y - 1) * W + W := by
          obtain ⟨y', rfl⟩ : ∃ y', y = y' + 1 := ⟨y - 1, by omega⟩
          simp [Nat.add_mul, Nat.succ_sub_one]
        have henc : enc W (x, y - 1) = y * W + x - W := by
          simp only [enc]
          omega
        by_cases hvq : st.visited (y * W + x - W) = true
        · left
          rw [henc, if_neg (by omega)]
          exact hvq
        · right
          refine mem_pushStack.mpr (Or.inr (Or.inl ⟨⟨?_, ?_⟩, rfl⟩))
          · omega
          · rw [if_neg (by omega)]
            exact Bool.eq_false_iff.mpr hvq
    · -- a previously visited pixel: use the old frontier property
      rw [if_neg hpi] at hpv
      rcases hfront p hpB hpv hpm q hadj hqB with h | h
      · left
        by_cases hqi : enc W q = y * W + x
        · rw [if_pos hqi]
        · rw [if_neg hqi]; exact h
      · rw [hstack] at h
        rcases List.mem_cons.mp h with rfl | h
        · left
          simp [enc]
        · exact Or.inr (mem_pushStack.mpr (Or.inr (Or.inr (Or.inr (Or.inr h)))))
  · dsimp only
    rcases hseed with h | h
    · left
      by_cases hsi : enc W seed = y * W + x
      · rw [if_pos hsi]
      · rw [if_neg hsi]; exact h
    · rw [hstack] at h
      rcases List.mem_cons.mp h with rfl | h
      · left
        simp [enc]
      · exact Or.inr (mem_pushStack.mpr (Or.inr (Or.inr (Or.inr (Or.inr h)))))
  · rw [hstack]
    dsimp only
    rw [hc1]
    have hlen := length_pushStack
      (y < H - 1 ∧
        (if y * W + x + W = y * W + x then true else st.visited (y * W + x + W)) = false)
      (0 < y ∧
        (if y * W + x - W = y * W + x then true else st.visited (y * W + x - W)) = false)
      (x < W - 1 ∧
        (if y * W + x + 1 = y * W + x then true else st.visited (y * W + x + 1)) = false)
      (0 < x ∧
        (if y * W + x - 1 = y * W + x then true else st.visited (y * W + x - 1)) = false)
      (x, y + 1) (x, y - 1) (x + 1, y) (x - 1, y) rest
    simp only [List.length_cons]
    omega

/-- One pop preserves the invariant and strictly shrinks the measure
`stack.length + 4 * unvisitedCount`. -/
theorem floodStep_inv {W H : ℕ} {orig : Buffer} {tR tG tB : ℕ}
    {seed : ℕ × ℕ} {x y : ℕ} {rest : List (ℕ × ℕ)} {st : FillState}
    (hstack : st.stack = (x, y) :: rest)
    (hinv : FloodInv W H orig tR tG tB seed st) :
    FloodInv W H orig tR tG tB seed (floodStep W H tR tG tB x y rest st) ∧
    (floodStep W H tR tG tB x y rest st).stack.length + 1 +
        4 * unvisitedCount W H (floodStep W H tR tG tB x y rest st).visited ≤
      st.stack.length + 4 * unvisitedCount W H st.visited := by
  by_cases hv : st.visited (y * W + x) = true
  · exact floodStep_inv_visited hstack hinv hv
  · have hv' : st.visited (y * W + x) = false := Bool.eq_false_iff.mpr hv
    by_cases hm : matchesAt orig tR tG tB (y * W + x)
    · exact floodStep_inv_match hstack hinv hv' hm
    · exact floodStep_inv_nomatch hstack hinv hv' hm

/-- The traversal loop terminates whenever it is given at least
`stack.length + 4 * unvisitedCount` fuel, and the invariant carries over to
the final state, whose stack is empty. -/
theorem floodLoop_inv {W H : ℕ} {orig : Buffer} {tR tG tB : ℕ} {seed : ℕ × ℕ} :
    ∀ (fuel : ℕ) (st : FillState), FloodInv W H orig tR tG tB seed st →
      st.stack.length + 4 * unvisitedCount W H st.visited ≤ fuel →
      ∃ fin, floodLoop W H tR tG tB fuel st = some fin ∧
        FloodInv W H orig tR tG tB seed fin ∧ fin.stack = [] := by
  intro fuel
  induction fuel with
  | zero =>
    intro st hinv hle
    have hlen : st.stack.length = 0 := by omega
    have hstack : st.stack = [] := List.length_eq_zero.mp hlen
    exact ⟨st, by rw [floodLoop, hstack], hinv, hstack⟩
  | succ f ih =>
    intro st hinv hle
    match hstack : st.stack with
    | [] => exact ⟨st, by rw [floodLoop, hstack], hinv, hstack⟩
    | (x, y) :: rest =>
      obtain ⟨hinv', hmeas⟩ := floodStep_inv hstack hinv
      have hrun : floodLoop W H tR tG tB (f + 1) st =
          floodLoop W H tR tG tB f (floodStep W H tR tG tB x y rest st) := by
        rw [floodLoop, hstack]
      rw [hstack] at hle hmeas
      simp only [List.length_cons] at hle hmeas
      obtain ⟨fin, hfin, hfininv, hfinstack⟩ := ih (floodStep W H tR tG tB x y rest st) hinv'
        (by omega)
      exact ⟨fin, by rw [hrun, hfin], hfininv, hfinstack⟩

/-- The invariant holds at the start of the traversal, for an in-bounds
seed. -/
theorem floodInv_init {W H : ℕ} {orig : Buffer} {tR tG tB : ℕ} {seed : ℕ × ℕ}
    (hseedB : inB W H seed) :
    FloodInv W H orig tR tG tB seed
      { data := orig, visited := fun _ => false, stack := [seed] } := by
  refine ⟨?_, ?_, ?_, ?_, ?_⟩
  · intro i
    simp
  · intro i hvi
    simp at hvi
  · intro q hq
    rcases List.mem_singleton.mp hq with rfl
    exact ⟨hseedB, Or.inl rfl⟩
  · intro p hpB hpv
    simp at hpv
  · exact Or.inr (List.mem_singleton.mpr rfl)

/-- The fuel `1 + 4 * W * H` used by `removeColorAt` suffices for any
in-bounds seed: the loop reaches an empty stack and returns. -/
theorem floodLoop_fuel_sound (W H : ℕ) (orig : Buffer) (tR tG tB : ℕ) (seed : ℕ × ℕ)
    (hseedB : inB W H seed) :
    ∃ fin, floodLoop W H tR tG tB (1 + 4 * W * H)
        { data := orig, visited := fun _ => false, stack := [seed] } = some fin ∧
      FloodInv W H orig tR tG tB seed fin ∧ fin.stack = [] := by
  apply floodLoop_inv _ _ (floodInv_init hseedB)
  have hcard : unvisitedCount W H (fun _ => false) ≤ W * H := by
    unfold unvisitedCount
    calc ((Finset.range (W * H)).filter fun _ => (false : Bool) = false).card ≤
        (Finset.range (W * H)).card := Finset.card_filter_le _ _
      _ = W * H := Finset.card_range _
  have h4 : 4 * W * H = 4 * (W * H) := by ring
  simp only [List.length_singleton]
  omega

/-- When the traversal has finished (empty stack), the data is white exactly
on the reached region and untouched elsewhere. -/
theorem floodFinal_char {W H : ℕ} {orig : Buffer} {tR tG tB : ℕ} {seed : ℕ × ℕ}
    {fin : FillState}
    (hseedB : inB W H seed)
    (hseedM : matchesAt orig tR tG tB (enc W seed))
    (hinv : FloodInv W H orig tR tG tB seed fin)
    (hstack : fin.stack = []) :
    ∀ p, inB W H p →
      (reaches W H orig tR tG tB seed p → fin.data (enc W p) = white) ∧
      (¬ reaches W H orig tR tG tB seed p → fin.data (enc W p) = orig (enc W p)) := by
  obtain ⟨hdata, hvb, hstk, hfront, hseed⟩ := hinv
  have hseedvis : fin.visited (enc W seed) = true := by
    rcases hseed with h | h
    · exact h
    · rw [hstack] at h; cases h
  have hvis : ∀ p, reaches W H orig tR tG tB seed p → fin.visited (enc W p) = true := by
    intro p hp
    induction hp with
    | refl => exact hseedvis
    | tail hr hstep ih =>
      obtain ⟨hadj, hqB, hqM⟩ := hstep
      have hbB := reaches_inB hseedB hr
      have hbM := reaches_matchesAt hseedM hr
      rcases hfront _ hbB ih hbM _ hadj hqB with h | h
      · exact h
      · rw [hstack] at h; cases h
  intro p hpB
  constructor
  · intro hp
    rw [hdata, if_pos ⟨hvis p hp, reaches_matchesAt hseedM hp⟩]
  · intro hnp
    rw [hdata, if_neg]
    rintro ⟨hv, hmm⟩
    obtain ⟨p', hp'B, hpe, hp'C⟩ := hvb _ hv
    have hpp : p = p' := enc_inj hpB hp'B hpe
    subst hpp
    exact hnp (candidate_reaches hp'C hpB hmm)

/-- Full correctness of `removeColorAt` on an allowed in-bounds seed: the
call succeeds (its fixed fuel suffices) and the returned buffer is opaque
white exactly on the 4-connected region of pixels reachable from the seed
through colors within tolerance of the seed color, all other pixels keeping
their original value. -/
theorem removeColorAt_correct (W H : ℕ) (orig : Buffer) (sx sy : ℕ)
    (hx : sx < W) (hy : sy < H)
    (hw : ¬ nearWhite (orig (sy * W + sx)))
    (hb : ¬ nearBlack (orig (sy * W + sx))) :
    ∃ res, removeColorAt W H orig (sx : ℚ) (sy : ℚ) = some res ∧
      ∀ x y, x < W → y < H →
        (reaches W H orig (orig (sy * W + sx)).r (orig (sy * W + sx)).g
            (orig (sy * W + sx)).b (sx, sy) (x, y) →
          res (y * W + x) = white) ∧
        (¬ reaches W H orig (orig (sy * W + sx)).r (orig (sy * W + sx)).g
            (orig (sy * W + sx)).b (sx, sy) (x, y) →
          res (y * W + x) = orig (y * W + x)) := by
  have hseedB : inB W H (sx, sy) := ⟨hx, hy⟩
  obtain ⟨fin, hrun, hinv, hstk⟩ := floodLoop_fuel_sound W H orig
    (orig (sy * W + sx)).r (orig (sy * W + sx)).g (orig (sy * W + sx)).b
    (sx, sy) hseedB
  refine ⟨fin.data, ?_, ?_⟩
  · unfold removeColorAt
    rw [if_neg, Int.floor_natCast, Int.floor_natCast, Int.toNat_natCast, Int.toNat_natCast,
        if_neg hw, if_neg hb, hrun]
    rw [Int.floor_natCast, Int.floor_natCast]
    omega
  · intro x y hxB hyB
    have := floodFinal_char hseedB
      (matchColor_self (orig (sy * W + sx)).r (orig (sy * W + sx)).g (orig (sy * W + sx)).b)
      hinv hstk (x, y) ⟨hxB, hyB⟩
    exact this

/-- Reading an appended list at the length of its prefix yields the appended
element. -/
theorem getD_append_length {α : Type} (l : List α) (b d : α) :
    (l ++ [b]).getD l.length d = b := by
  induction l with
  | nil => rfl
  | cons a t ih =>
    rw [List.cons_append, List.length_cons, List.getD_cons_succ]
    exact ih

/-- After the image load, the history is the single baseline snapshot, the
index is 0, and the buffer is the image. -/
theorem loadImage_spec (w h : ℕ) (img : Buffer) :
    (loadImage w h img).history = [img] ∧ (loadImage w h img).historyIndex = 0 ∧
    (loadImage w h img).buffer = img := by
  simp [loadImage, saveState]

/-- A committed operation preserves the session invariant and advances the
index by one. -/
theorem commitOp_histInv {img : Buffer} {st : AppState} (h : HistInv img st)
    (f : Buffer → Buffer) :
    HistInv img (commitOp f st) ∧
      (commitOp f st).historyIndex = st.historyIndex + 1 := by
  obtain ⟨l, hh, hi, hb⟩ := h
  have ht : ((l.length : ℤ) + 1).toNat = l.length + 1 := by omega
  have htake : (img :: l).take (l.length + 1) = img :: l :=
    List.take_of_length_le (by simp)
  constructor
  · refine ⟨l ++ [f st.buffer], ?_, ?_, ?_⟩
    · simp only [commitOp, saveState]
      rw [hh, hi, ht, htake]
      simp
    · simp only [commitOp, saveState]
      rw [hh, hi, ht, htake]
      simp only [List.length_append, List.length_cons, List.length_nil]
      push_cast
      ring
    · simp only [commitOp, saveState]
      have hlen2 : (l ++ [f st.buffer]).length = (img :: l).length := by simp
      calc f st.buffer
          = ((img :: l) ++ [f st.buffer]).getD (img :: l).length img :=
            (getD_append_length (img :: l) (f st.buffer) img).symm
        _ = (img :: (l ++ [f st.buffer])).getD (l ++ [f st.buffer]).length img := by
            rw [hlen2, List.cons_append]
  · simp only [commitOp, saveState]
    rw [hh, hi, ht, htake]
    simp only [List.length_append, List.length_cons, List.length_nil]
    push_cast
    ring

/-- A run of committed operations preserves the session invariant and
advances the index by the number of operations. -/
theorem foldl_commitOp_histInv (img : Buffer) (fs : List (Buffer → Buffer)) :
    ∀ st, HistInv img st →
      HistInv img (fs.foldl (fun s f => commitOp f s) st) ∧
      (fs.foldl (fun s f => commitOp f s) st).historyIndex =
        st.historyIndex + fs.length := by
  induction fs with
  | nil =>
    intro st h
    exact ⟨h, by simp⟩
  | cons f t ih =>
    intro st h
    obtain ⟨h1, h2⟩ := commitOp_histInv h f
    obtain ⟨h3, h4⟩ := ih _ h1
    refine ⟨h3, ?_⟩
    rw [List.foldl_cons, h4, h2]
    simp only [List.length_cons]
    push_cast
    ring

/-- Undoing `k` times from index `k` restores the baseline snapshot into the
buffer. -/
theorem undo_iter (img : Buffer) :
    ∀ (k : ℕ) (st : AppState) (l : List Buffer),
      st.history = img :: l → st.historyIndex = (k : ℤ) → k ≤ l.length →
      st.buffer = (img :: l).getD k img →
      (undo^[k] st).buffer = img := by
  intro k
  induction k with
  | zero =>
    intro st l hh hi hk hb
    simp only [Function.iterate_zero_apply, hb, List.getD_cons_zero]
  | succ n ih =>
    intro st l hh hi hk hb
    rw [Function.iterate_succ_apply]
    have hpos : 0 < st.historyIndex := by omega
    have hundo : undo st =
        { st with historyIndex := st.historyIndex - 1,
                  buffer := st.history.getD (st.historyIndex - 1).toNat st.buffer } := by
      simp only [undo]
      rw [if_pos hpos]
    apply ih (undo st) l
    · rw [hundo]; exact hh
    · rw [hundo]
      dsimp only
      omega
    · omega
    · rw [hundo]
      dsimp only
      rw [hh, hi]
      have htn : ((((n + 1 : ℕ) : ℤ)) - 1).toNat = n := by omega
      rw [htn]
      have hlt : n < (img :: l).length := by
        simp only [List.length_cons]
        omega
      rw [List.getD_eq_getElem _ _ hlt, List.getD_eq_getElem _ _ hlt]

/-- Bucket counts over an appended sample. -/
theorem bucketCount_snoc (p : List Pixel) (c : Pixel) (k : ℕ × ℕ × ℕ) :
    bucketCount (p ++ [c]) k =
      bucketCount p k + if bucketKey c = k then 1 else 0 := by
  unfold bucketCount
  rw [List.countP_append]
  simp [List.countP_singleton]

/-- Bucket counts of a prefix never exceed those of the full list. -/
theorem bucketCount_take_le (p : List Pixel) (n : ℕ) (k : ℕ × ℕ × ℕ) :
    bucketCount (p.take n) k ≤ bucketCount p k :=
  (List.take_sublist n p).countP_le _

/-- The invariant holds for the empty prefix and the initial accumulator. -/
theorem accInv_init : AccInv [] initAcc :=
  ⟨fun _ => rfl, fun _ => rfl, fun h => absurd rfl h⟩

/-- `coreStep` preserves the accumulator invariant across one surviving
sample. -/
theorem accInv_coreStep {p : List Pixel} {acc : SampleAcc}
    (h : AccInv p acc) (c : Pixel) : AccInv (p ++ [c]) (coreStep acc c) := by
  obtain ⟨hcounts, hempty, hne⟩ := h
  have hnewCount : acc.counts (bucketKey c) + 1 = bucketCount (p ++ [c]) (bucketKey c) := by
    rw [hcounts, bucketCount_snoc, if_pos rfl]
  have hcountsNew : ∀ k,
      (if k = bucketKey c then acc.counts (bucketKey c) + 1 else acc.counts k) =
        bucketCount (p ++ [c]) k := by
    intro k
    by_cases hk : k = bucketKey c
    · rw [if_pos hk, hk, hnewCount]
    · rw [if_neg hk, hcounts, bucketCount_snoc, if_neg (fun he => hk he.symm),
        Nat.add_zero]
  unfold coreStep
  by_cases hlt : acc.maxCount < acc.counts (bucketKey c) + 1
  · rw [if_pos hlt]
    refine ⟨hcountsNew, by simp, ?_⟩
    intro _
    have hjlt : p.length < (p ++ [c]).length := by simp
    have hgetc : (p ++ [c]).get ⟨p.length, hjlt⟩ = c := by simp
    have htake : (p ++ [c]).take (p.length + 1) = p ++ [c] :=
      List.take_of_length_le (by simp)
    refine ⟨⟨p.length, hjlt⟩, ?_, ?_, ?_, ?_, ?_, ?_⟩
    · dsimp only
      rw [hgetc]
    · dsimp only
      rw [hgetc]
    · dsimp only
      rw [hgetc]
    · dsimp only
      rw [hgetc, htake]
      exact hnewCount
    · intro k
      dsimp only
      by_cases hk : k = bucketKey c
      · rw [hk, ← hnewCount]
      · rw [bucketCount_snoc, if_neg (fun he => hk he.symm), Nat.add_zero]
        by_cases hp : p = []
        · subst hp
          simp [bucketCount]
        · obtain ⟨j, -, -, -, -, hub, -⟩ := hne hp
          have := hub k
          omega
    · intro i hi k
      have hi' : i < p.length := hi
      have hip : i + 1 ≤ p.length := hi'
      dsimp only
      rw [List.take_append_of_le_length hip]
      have h1 : bucketCount (p.take (i + 1)) k ≤ bucketCount p k :=
        bucketCount_take_le p (i + 1) k
      have hp : p ≠ [] := by
        intro h0
        rw [h0] at hi'
        simp at hi'
      obtain ⟨j, -, -, -, -, hub, -⟩ := hne hp
      have := hub k
      omega
  · rw [if_neg hlt]
    have hpne : p ≠ [] := by
      intro hp0
      apply hlt
      rw [hempty hp0, hcounts, hp0]
      simp [bucketCount]
    obtain ⟨j, hbgR, hbgG, hbgB, hmax, hub, hmin⟩ := hne hpne
    have hjlt : (j : ℕ) < (p ++ [c]).length := by
      have := j.isLt
      simp only [List.length_append, List.length_cons, List.length_nil]
      omega
    have hget : (p ++ [c]).get ⟨j, hjlt⟩ = p.get j := by
      simp [List.getElem_append_left j.isLt]
    have hj1 : (j : ℕ) + 1 ≤ p.length := j.isLt
    refine ⟨hcountsNew, by simp, ?_⟩
    intro _
    refine ⟨⟨j, hjlt⟩, ?_, ?_, ?_, ?_, ?_, ?_⟩
    · dsimp only
      rw [hget]
      exact hbgR
    · dsimp only
      rw [hget]
      exact hbgG
    · dsimp only
      rw [hget]
      exact hbgB
    · dsimp only
      rw [hget, List.take_append_of_le_length hj1]
      exact hmax
    · intro k
      dsimp only
      by_cases hk : k = bucketKey c
      · rw [hk, ← hnewCount]
        omega
      · rw [bucketCount_snoc, if_neg (fun he => hk he.symm), Nat.add_zero]
        exact hub k
    · intro i hi k
      have hi' : i < (j : ℕ) := hi
      have hi1 : i + 1 ≤ p.length := by omega
      dsimp only
      rw [List.take_append_of_le_length hi1]
      exact hmin i hi' k

/-- Folding `coreStep` over further samples extends the invariant. -/
theorem foldl_coreStep_inv :
    ∀ (cs p : List Pixel) (acc : SampleAcc), AccInv p acc →
      AccInv (p ++ cs) (cs.foldl coreStep acc) := by
  intro cs
  induction cs with
  | nil =>
    intro p acc h
    simpa using h
  | cons c t ih =>
    intro p acc h
    rw [List.foldl_cons]
    have h1 := accInv_coreStep h c
    have h2 := ih (p ++ [c]) _ h1
    rw [List.append_assoc] at h2
    simpa using h2

/-- The double sampling loop is the `coreStep` fold over the surviving
samples: non-perimeter positions and dark pixels are skipped. -/
theorem foldl_samplePixelStep_eq (sW sH : ℕ) (d : Buffer) :
    ∀ (ps : List (ℕ × ℕ)) (acc : SampleAcc),
      ps.foldl (samplePixelStep sW sH d) acc =
        ((((ps.filter fun pos =>
            decide (pos.2 = 0 ∨ pos.2 = sW - 1 ∨ pos.1 = 0 ∨ pos.1 = sH - 1)).map
          fun pos => d (pos.1 * sW + pos.2)).filter
            fun p => !decide (isDark p)).foldl coreStep acc) := by
  intro ps
  induction ps with
  | nil =>
    intro acc
    rfl
  | cons q t ih =>
    intro acc
    rw [List.foldl_cons]
    by_cases hperim : q.2 = 0 ∨ q.2 = sW - 1 ∨ q.1 = 0 ∨ q.1 = sH - 1
    · by_cases hdark : isDark (d (q.1 * sW + q.2))
      · simp [samplePixelStep, hperim, hdark, ih]
      · simp [samplePixelStep, hperim, hdark, ih]
    · simp [samplePixelStep, hperim, ih]

/-- The inferred background color read off the `coreStep` fold over the
surviving ring samples. -/
theorem inferBgColor_eq_ring_fold (sW sH : ℕ) (d : Buffer) :
    inferBgColor sW sH d =
      ⟨((ringColors sW sH d).foldl coreStep initAcc).bgR,
        ((ringColors sW sH d).foldl coreStep initAcc).bgG,
        ((ringColors sW sH d).foldl coreStep initAcc).bgB, 255⟩ := by
  unfold inferBgColor ringColors
  rw [foldl_samplePixelStep_eq]

/-! ### Claim theorems -/

/-- C1: for every buffer and every in-bounds seed pixel whose color is
neither near-white (all RGB channels > 240) nor near-black (all channels
< 50), the color-wand flood fill `removeColorAt` succeeds and sets to opaque
white `(255,255,255,255)` exactly the 4-connected set of pixels reachable
from the seed through pixels whose Euclidean RGB distance to the seed color
is strictly below 40 (`reaches`), and leaves every pixel outside that
connected region unchanged — in particular, disconnected regions of the same
color are untouched. -/
theorem C1_flood_fill_exact_region (W H : ℕ) (orig : Buffer) (sx sy : ℕ)
    (hx : sx < W) (hy : sy < H)
    (hw : ¬ nearWhite (orig (sy * W + sx)))
    (hb : ¬ nearBlack (orig (sy * W + sx))) :
    ∃ res, removeColorAt W H orig (sx : ℚ) (sy : ℚ) = some res ∧
      ∀ x y, x < W → y < H →
        (reaches W H orig (orig (sy * W + sx)).r (orig (sy * W + sx)).g
            (orig (sy * W + sx)).b (sx, sy) (x, y) →
          res (y * W + x) = white) ∧
        (¬ reaches W H orig (orig (sy * W + sx)).r (orig (sy * W + sx)).g
            (orig (sy * W + sx)).b (sx, sy) (x, y) →
          res (y * W + x) = orig (y * W + x)) :=
  removeColorAt_correct W H orig sx sy hx hy hw hb

/-- Witness for C1 at a concrete input: the 2×1 buffer `exBufPair` with seed
`(0,0)` of color `(100,100,100)`, which is neither near-white nor
near-black. -/
theorem C1_flood_fill_exact_region_witness :
    (0 < 2 ∧ 0 < 1 ∧ ¬ nearWhite (exBufPair (0 * 2 + 0)) ∧
      ¬ nearBlack (exBufPair (0 * 2 + 0))) ∧
    (∃ res, removeColorAt 2 1 exBufPair ((0 : ℕ) : ℚ) ((0 : ℕ) : ℚ) = some res ∧
      ∀ x y, x < 2 → y < 1 →
        (reaches 2 1 exBufPair (exBufPair (0 * 2 + 0)).r (exBufPair (0 * 2 + 0)).g
            (exBufPair (0 * 2 + 0)).b (0, 0) (x, y) →
          res (y * 2 + x) = white) ∧
        (¬ reaches 2 1 exBufPair (exBufPair (0 * 2 + 0)).r (exBufPair (0 * 2 + 0)).g
            (exBufPair (0 * 2 + 0)).b (0, 0) (x, y) →
          res (y * 2 + x) = exBufPair (y * 2 + x))) :=
  ⟨⟨by decide, by decide, by decide, by decide⟩,
    C1_flood_fill_exact_region 2 1 exBufPair 0 0 (by decide) (by decide)
      (by decide) (by decide)⟩

/-- C4: for every N ≥ 0 and every sequence of N committed tool operations
performed after the initial image load, performing N consecutive undo
operations leaves the buffer pixel-identical to the baseline snapshot taken
immediately after the load.  A committed operation is modelled as an
arbitrary buffer transformation followed by the `saveState` call that every
committing branch of the source performs. -/
theorem C4_n_undos_restore_baseline (w h : ℕ) (img : Buffer)
    (fs : List (Buffer → Buffer)) :
    (undo^[fs.length] (fs.foldl (fun s f => commitOp f s) (loadImage w h img))).buffer
      = img := by
  obtain ⟨hh0, hi0, hb0⟩ := loadImage_spec w h img
  have hinv0 : HistInv img (loadImage w h img) :=
    ⟨[], hh0, by rw [hi0]; rfl, by rw [hb0]; rfl⟩
  obtain ⟨⟨l, hh, hi, hb⟩, hidx⟩ := foldl_commitOp_histInv img fs _ hinv0
  rw [hi0] at hidx
  have hlen : l.length = fs.length := by omega
  apply undo_iter img fs.length _ l hh
  · rw [hi, hlen]
  · omega
  · rw [← hlen]
    exact hb

/-- C5: pushing a new snapshot when the current history index is not at the
last entry discards every entry after the index before appending: the new
history is the first index+1 old entries followed by the new snapshot, the
index equals the new last position, and no redo state remains reachable
(`redo` is a no-op). -/
theorem C5_push_truncates_redo_tail (st : AppState)
    (h0 : 0 ≤ st.historyIndex) (_h1 : st.historyIndex < (st.history.length : ℤ) - 1) :
    (saveState st).history = st.history.take (st.historyIndex.toNat + 1) ++ [st.buffer] ∧
    (saveState st).historyIndex = ((saveState st).history.length : ℤ) - 1 ∧
    redo (saveState st) = saveState st := by
  have ht : (st.historyIndex + 1).toNat = st.historyIndex.toNat + 1 := by omega
  refine ⟨?_, ?_, ?_⟩
  · simp only [saveState]
    rw [ht]
  · simp only [saveState]
  · simp only [redo, saveState]
    rw [if_neg]
    omega

/-- Witness for C5 at a concrete input: a two-entry history with the index
at position 0 (one undo has happened). -/
theorem C5_push_truncates_redo_tail_witness :
    (0 ≤ exStateTwo.historyIndex ∧
      exStateTwo.historyIndex < (exStateTwo.history.length : ℤ) - 1) ∧
    ((saveState exStateTwo).history =
        exStateTwo.history.take (exStateTwo.historyIndex.toNat + 1) ++
          [exStateTwo.buffer] ∧
      (saveState exStateTwo).historyIndex =
        ((saveState exStateTwo).history.length : ℤ) - 1 ∧
      redo (saveState exStateTwo) = saveState exStateTwo) :=
  ⟨⟨by decide, by decide⟩,
    C5_push_truncates_redo_tail exStateTwo (by decide) (by decide)⟩

/-- C6: if the seed pixel of a color-wand click is near-white (all channels
> 240) or near-black (all channels < 50), the operation is a silent no-op:
the editor state — buffer, history, everything — is returned unchanged, with
no snapshot pushed and no error raised. -/
theorem C6_disallowed_seed_is_noop (st : AppState) (startX startY : ℚ)
    (hx0 : 0 ≤ ⌊startX⌋) (hx1 : ⌊startX⌋ < (st.width : ℤ))
    (hy0 : 0 ≤ ⌊startY⌋) (hy1 : ⌊startY⌋ < (st.height : ℤ))
    (hcol : nearWhite (st.buffer (⌊startY⌋.toNat * st.width + ⌊startX⌋.toNat)) ∨
        nearBlack (st.buffer (⌊startY⌋.toNat * st.width + ⌊startX⌋.toNat))) :
    wandClick st startX startY = st := by
  have hnone : removeColorAt st.width st.height st.buffer startX startY = none := by
    simp only [removeColorAt]
    rw [if_neg (by omega)]
    rcases hcol with h | h
    · rw [if_pos h]
    · have hnw : ¬ nearWhite (st.buffer (⌊startY⌋.toNat * st.width + ⌊startX⌋.toNat)) := by
        intro hw
        exact absurd hw.1 (by have := h.1; omega)
      rw [if_neg hnw, if_pos h]
  unfold wandClick
  rw [hnone]

/-- Witness for C6 at a concrete input: a click at `(0,0)` on the near-white
2×1 canvas of `exState` leaves the state untouched. -/
theorem C6_disallowed_seed_is_noop_witness :
    (0 ≤ ⌊(0 : ℚ)⌋ ∧ ⌊(0 : ℚ)⌋ < (exState.width : ℤ) ∧
      0 ≤ ⌊(0 : ℚ)⌋ ∧ ⌊(0 : ℚ)⌋ < (exState.height : ℤ) ∧
      (nearWhite (exState.buffer (⌊(0 : ℚ)⌋.toNat * exState.width + ⌊(0 : ℚ)⌋.toNat)) ∨
        nearBlack (exState.buffer (⌊(0 : ℚ)⌋.toNat * exState.width + ⌊(0 : ℚ)⌋.toNat)))) ∧
    wandClick exState 0 0 = exState :=
  ⟨⟨by decide, by decide, by decide, by decide, Or.inl (by decide)⟩,
    C6_disallowed_seed_is_noop exState 0 0 (by decide) (by decide) (by decide) (by decide)
      (Or.inl (by decide))⟩

/-- C10: the color-wand traversal loop terminates for every buffer and every
in-bounds seed: a visited pixel is never re-processed and each iteration pops
one entry while pushing at most four entries per newly visited pixel, so
`1 + 4 * W * H` iterations of fuel always suffice for the loop to drain its
stack and return. -/
theorem C10_flood_loop_terminates (W H tR tG tB : ℕ) (orig : Buffer) (seed : ℕ × ℕ)
    (hseedB : inB W H seed) :
    ∃ fin, floodLoop W H tR tG tB (1 + 4 * W * H)
        { data := orig, visited := fun _ => false, stack := [seed] } = some fin ∧
      fin.stack = [] := by
  obtain ⟨fin, h1, -, h3⟩ := floodLoop_fuel_sound W H orig tR tG tB seed hseedB
  exact ⟨fin, h1, h3⟩

/-- Witness for C10 at a concrete input: the loop on a 1×1 buffer from seed
`(0,0)` drains its stack within the fuel bound. -/
theorem C10_flood_loop_terminates_witness :
    inB 1 1 (0, 0) ∧
    ∃ fin, floodLoop 1 1 0 0 0 (1 + 4 * 1 * 1)
        { data := exBuf [], visited := fun _ => false, stack := [(0, 0)] } = some fin ∧
      fin.stack = [] :=
  ⟨by decide, C10_flood_loop_terminates 1 1 0 0 0 (exBuf []) (0, 0) (by decide)⟩

/-- C8: in rotated display mode, the screen-to-buffer conversion returns
exactly `bufferX = (clientY - canvasTop) * (bufferWidth / displayHeight)` and
`bufferY = (canvasRight - clientX) * (bufferHeight / displayWidth)`, for
every pointer position and every canvas geometry with positive display width
and height. -/
theorem C8_rotated_conversion_formula (canvasW canvasH : ℕ) (rect : CanvasRect)
    (clientX clientY : ℚ) (_hw : 0 < rect.width) (_hh : 0 < rect.height) :
    (getMousePos true canvasW canvasH rect clientX clientY).1 =
        rotatedSpecX canvasW rect clientY ∧
    (getMousePos true canvasW canvasH rect clientX clientY).2 =
        rotatedSpecY canvasH rect clientX :=
  ⟨rfl, rfl⟩

/-- Witness for C8 at a concrete input: the geometry `exRect` (display
50×50) with a 100×100 buffer and pointer at `(10, 20)`. -/
theorem C8_rotated_conversion_formula_witness :
    (0 < exRect.width ∧ 0 < exRect.height) ∧
    ((getMousePos true 100 100 exRect 10 20).1 = rotatedSpecX 100 exRect 20 ∧
      (getMousePos true 100 100 exRect 10 20).2 = rotatedSpecY 100 exRect 10) :=
  ⟨⟨by decide, by decide⟩,
    C8_rotated_conversion_formula 100 100 exRect 10 20 (by decide) (by decide)⟩

/-- C9: every pan and zoom operation — hand-tool or middle-button drag
(`panPointerDown`/`panPointerMove`), wheel or trackpad scroll and
modifier+scroll zoom (`handleWheel`), two-finger pinch
(`pinchPointerDown`/`pinchPointerMove`), and keyboard zoom and reset
(`keyZoomIn`/`keyZoomOut`/`resetView`) — modifies only the view state: the
pixel buffer, the history stack and the history index are unchanged by each
such operation. -/
theorem C9_pan_zoom_leave_buffer_and_history (st : AppState)
    (ctrlOrMeta shiftKey imageLoaded hasContainer : Bool)
    (deltaX deltaY factor mouseX mouseY clientX clientY dist midX midY
      containerW containerH imgW imgH : ℚ) :
    ((handleWheel st ctrlOrMeta shiftKey deltaX deltaY factor mouseX mouseY).buffer =
        st.buffer ∧
      (handleWheel st ctrlOrMeta shiftKey deltaX deltaY factor mouseX mouseY).history =
        st.history ∧
      (handleWheel st ctrlOrMeta shiftKey deltaX deltaY factor mouseX mouseY).historyIndex =
        st.historyIndex) ∧
    ((panPointerDown st clientX clientY).buffer = st.buffer ∧
      (panPointerDown st clientX clientY).history = st.history ∧
      (panPointerDown st clientX clientY).historyIndex = st.historyIndex) ∧
    ((panPointerMove st clientX clientY).buffer = st.buffer ∧
      (panPointerMove st clientX clientY).history = st.history ∧
      (panPointerMove st clientX clientY).historyIndex = st.historyIndex) ∧
    ((pinchPointerDown st dist midX midY).buffer = st.buffer ∧
      (pinchPointerDown st dist midX midY).history = st.history ∧
      (pinchPointerDown st dist midX midY).historyIndex = st.historyIndex) ∧
    ((pinchPointerMove st dist midX midY).buffer = st.buffer ∧
      (pinchPointerMove st dist midX midY).history = st.history ∧
      (pinchPointerMove st dist midX midY).historyIndex = st.historyIndex) ∧
    ((keyZoomIn st).buffer = st.buffer ∧ (keyZoomIn st).history = st.history ∧
      (keyZoomIn st).historyIndex = st.historyIndex) ∧
    ((keyZoomOut st).buffer = st.buffer ∧ (keyZoomOut st).history = st.history ∧
      (keyZoomOut st).historyIndex = st.historyIndex) ∧
    ((resetView st imageLoaded hasContainer containerW containerH imgW imgH).buffer =
        st.buffer ∧
      (resetView st imageLoaded hasContainer containerW containerH imgW imgH).history =
        st.history ∧
      (resetView st imageLoaded hasContainer containerW containerH imgW imgH).historyIndex =
        st.historyIndex) := by
  refine ⟨⟨?_, ?_, ?_⟩, ⟨rfl, rfl, rfl⟩, ⟨rfl, rfl, rfl⟩, ⟨rfl, rfl, rfl⟩,
    ⟨?_, ?_, ?_⟩, ⟨rfl, rfl, rfl⟩, ⟨rfl, rfl, rfl⟩, ⟨?_, ?_, ?_⟩⟩ <;>
    first
      | (simp only [handleWheel]; split_ifs <;> rfl)
      | (simp only [pinchPointerMove]
         cases st.lastTouchDistance <;> rfl)
      | (simp only [resetView]; split_ifs <;> rfl)

/-- Commit behaviour of the brush branch of `handlePointerUp`: one snapshot
when the spanned rectangle is nondegenerate, nothing otherwise. -/
theorem brushPointerUp_commit_spec (fill : Buffer → ℚ → ℚ → ℚ → ℚ → Pixel → Buffer)
    (st : AppState) (htool : st.tool = Tool.brush)
    (hpan : st.isPanning = false) (hdraw : st.isDrawing = true) :
    ((¬ |st.currentX - st.startX| = 0 ∧ ¬ |st.currentY - st.startY| = 0) →
        (handlePointerUp fill st).history =
          st.history.take (st.historyIndex + 1).toNat ++ [st.buffer]) ∧
    ((|st.currentX - st.startX| = 0 ∨ |st.currentY - st.startY| = 0) →
        (handlePointerUp fill st).history = st.history ∧
        (handlePointerUp fill st).buffer = st.buffer) := by
  simp only [handlePointerUp, hpan, hdraw, htool, Bool.false_eq_true, if_false,
    Bool.true_eq_false]
  split_ifs with hzero
  · refine ⟨?_, ?_⟩
    · rintro ⟨ha, hb⟩
      rcases hzero with h | h
      · exact absurd h ha
      · exact absurd h hb
    · intro h
      exact ⟨rfl, rfl⟩
  · refine ⟨?_, ?_⟩
    · intro h
      simp only [saveState]
    · intro h
      exact absurd h hzero

/-- C3, counterexample: a freehand-brush gesture that painted points but
whose start and end share their x coordinate (a perfectly vertical stroke,
width 0) commits nothing on pointer-up: the history is left empty, while the
claim requires exactly one snapshot regardless of the spanned rectangle's
width or height.  The zero-size guard `if (width === 0 || height === 0)
return;` runs before the brush branch of `handlePointerUp`. -/
theorem C3_cex_vertical_brush_stroke_commits_nothing :
    exStateBrush.tool = Tool.brush ∧ exStateBrush.isDrawing = true ∧
    exStateBrush.history = [] ∧
    (handlePointerUp fillId exStateBrush).history = [] := by
  refine ⟨rfl, rfl, rfl, ?_⟩
  have h := (brushPointerUp_commit_spec fillId exStateBrush rfl rfl rfl).2
  have hz : |exStateBrush.currentX - exStateBrush.startX| = 0 ∨
      |exStateBrush.currentY - exStateBrush.startY| = 0 := by
    left
    norm_num [exStateBrush, exState]
  rw [(h hz).1]
  rfl

/-- C3, amended: releasing the pointer after a freehand-brush gesture pushes
exactly one history snapshot if both the width and the height of the
rectangle spanned by the gesture's start and end positions are nonzero;
when either is zero (a perfectly vertical or horizontal stroke, or a
stationary click) nothing is committed — buffer and history are returned
unchanged even though points were drawn during the gesture. -/
theorem C3_amended_brush_commit (fill : Buffer → ℚ → ℚ → ℚ → ℚ → Pixel → Buffer)
    (st : AppState) (htool : st.tool = Tool.brush)
    (hpan : st.isPanning = false) (hdraw : st.isDrawing = true) :
    ((¬ |st.currentX - st.startX| = 0 ∧ ¬ |st.currentY - st.startY| = 0) →
        (handlePointerUp fill st).history =
          st.history.take (st.historyIndex + 1).toNat ++ [st.buffer]) ∧
    ((|st.currentX - st.startX| = 0 ∨ |st.currentY - st.startY| = 0) →
        (handlePointerUp fill st).history = st.history ∧
        (handlePointerUp fill st).buffer = st.buffer) :=
  brushPointerUp_commit_spec fill st htool hpan hdraw

/-- Witness for the amended C3 at a concrete input: a diagonal brush stroke
from `(10, 20)` to `(12, 35)` (nonzero width and height) on `exStateBrush`'s
base state. -/
theorem C3_amended_brush_commit_witness :
    (({ exStateBrush with currentX := 12 } : AppState).tool = Tool.brush ∧
      ({ exStateBrush with currentX := 12 } : AppState).isPanning = false ∧
      ({ exStateBrush with currentX := 12 } : AppState).isDrawing = true) ∧
    ((¬ |({ exStateBrush with currentX := 12 } : AppState).currentX -
          ({ exStateBrush with currentX := 12 } : AppState).startX| = 0 ∧
        ¬ |({ exStateBrush with currentX := 12 } : AppState).currentY -
          ({ exStateBrush with currentX := 12 } : AppState).startY| = 0 →
        (handlePointerUp fillId { exStateBrush with currentX := 12 }).history =
          ({ exStateBrush with currentX := 12 } : AppState).history.take
            (({ exStateBrush with currentX := 12 } : AppState).historyIndex + 1).toNat ++
            [({ exStateBrush with currentX := 12 } : AppState).buffer]) ∧
      (|({ exStateBrush with currentX := 12 } : AppState).currentX -
          ({ exStateBrush with currentX := 12 } : AppState).startX| = 0 ∨
        |({ exStateBrush with currentX := 12 } : AppState).currentY -
          ({ exStateBrush with currentX := 12 } : AppState).startY| = 0 →
        (handlePointerUp fillId { exStateBrush with currentX := 12 }).history =
          ({ exStateBrush with currentX := 12 } : AppState).history ∧
        (handlePointerUp fillId { exStateBrush with currentX := 12 }).buffer =
          ({ exStateBrush with currentX := 12 } : AppState).buffer)) :=
  ⟨⟨rfl, rfl, rfl⟩,
    C3_amended_brush_commit fillId { exStateBrush with currentX := 12 } rfl rfl rfl⟩

/-- C7, counterexample: the screen-to-buffer conversion performs no
clamping.  With the canvas geometry `exRect` (displayed at 50×50, buffer
100×100), the pointer position `clientX = -10` converts to buffer
x-coordinate `-20`, which lies outside `[0, 100)` and is passed as-is to the
tool handlers (the wand's `removeColorAt` receives it unchanged and rejects
it as out of bounds rather than clamping it into the buffer). -/
theorem C7_cex_conversion_not_clamped :
    (getMousePos false 100 100 exRect (-10) 0).1 = -20 ∧
    ¬ (0 ≤ (getMousePos false 100 100 exRect (-10) 0).1 ∧
        (getMousePos false 100 100 exRect (-10) 0).1 < 100) := by
  constructor
  · norm_num [getMousePos, exRect]
  · norm_num [getMousePos, exRect]

/-- C7, amended: out-of-bounds coordinates do not cause failures, but not
through clamping of the conversion: the conversion returns unclamped
coordinates; the color-wand click treats an out-of-bounds seed as a complete
no-op (state returned unchanged), and the text-eraser's background sample
rectangle is clamped to the buffer bounds. -/
theorem C7_amended_oob_handling (st : AppState) (startX startY : ℚ)
    (hoob : ⌊startX⌋ < 0 ∨ (st.width : ℤ) ≤ ⌊startX⌋ ∨
        ⌊startY⌋ < 0 ∨ (st.height : ℤ) ≤ ⌊startY⌋) :
    wandClick st startX startY = st ∧
    ∀ (W H : ℕ) (x y w h : ℚ),
      0 ≤ (sampleRect W H x y w h).1 ∧
      0 ≤ (sampleRect W H x y w h).2.1 ∧
      (sampleRect W H x y w h).1 + (sampleRect W H x y w h).2.2.1 ≤ W ∧
      (sampleRect W H x y w h).2.1 + (sampleRect W H x y w h).2.2.2 ≤ H := by
  constructor
  · have hnone : removeColorAt st.width st.height st.buffer startX startY = none := by
      simp only [removeColorAt]
      rw [if_pos hoob]
    unfold wandClick
    rw [hnone]
  · intro W H x y w h
    refine ⟨le_max_left _ _, le_max_left _ _, ?_, ?_⟩
    · calc max 0 (x - 2) + min ((W : ℚ) - max 0 (x - 2)) (w + 2 * 2) ≤
          max 0 (x - 2) + ((W : ℚ) - max 0 (x - 2)) :=
            add_le_add_left (min_le_left _ _) _
        _ = (W : ℚ) := by ring
    · calc max 0 (y - 2) + min ((H : ℚ) - max 0 (y - 2)) (h + 2 * 2) ≤
          max 0 (y - 2) + ((H : ℚ) - max 0 (y - 2)) :=
            add_le_add_left (min_le_left _ _) _
        _ = (H : ℚ) := by ring

/-- Witness for the amended C7 at a concrete input: a wand click at buffer
x-coordinate 5 on the 2×1 canvas of `exState` (out of bounds on the right). -/
theorem C7_amended_oob_handling_witness :
    (⌊(5 : ℚ)⌋ < 0 ∨ (exState.width : ℤ) ≤ ⌊(5 : ℚ)⌋ ∨
      ⌊(0 : ℚ)⌋ < 0 ∨ (exState.height : ℤ) ≤ ⌊(0 : ℚ)⌋) ∧
    (wandClick exState 5 0 = exState ∧
      ∀ (W H : ℕ) (x y w h : ℚ),
        0 ≤ (sampleRect W H x y w h).1 ∧
        0 ≤ (sampleRect W H x y w h).2.1 ∧
        (sampleRect W H x y w h).1 + (sampleRect W H x y w h).2.2.1 ≤ W ∧
        (sampleRect W H x y w h).2.1 + (sampleRect W H x y w h).2.2.2 ≤ H) :=
  ⟨Or.inr (Or.inl (by decide)),
    C7_amended_oob_handling exState 5 0 (Or.inr (Or.inl (by decide)))⟩

/-- C2, counterexample: on the 3×1 sample rectangle `exBufSample`, the two
survivors `(100,100,100)` and `(102,102,102)` fall into the same
quantization bucket, and the code reports `(102,102,102)` — the pixel whose
increment made the bucket's count exceed the running maximum — whereas the
claim's rule ("the first color seen in the most-populous bucket", formalized
from the spec's words as `specInferBgColor`) picks `(100,100,100)`.  The
source stores the first-seen color in `colors[key]` but never reads it back;
`bgR, bgG, bgB` are taken from the current pixel instead. -/
theorem C2_cex_not_first_color_of_best_bucket :
    ringColors 3 1 exBufSample ≠ [] ∧
    inferBgColor 3 1 exBufSample = exPix 102 102 102 ∧
    specInferBgColor 3 1 exBufSample = exPix 100 100 100 ∧
    inferBgColor 3 1 exBufSample ≠ specInferBgColor 3 1 exBufSample :=
  ⟨by decide, by decide, by decide, by decide⟩

/-- C2, amended: for a text-eraser commit with no manual color set, where at
least one sampled border-ring pixel survives the dark-pixel discard, the
inferred fill color is the color of the surviving sample (row-major scan
order) at the first position where a width-5-per-channel quantization
bucket's running count reaches the overall maximum bucket count: the count
of that sample's bucket within the scan prefix up to and including it
already bounds every bucket's total count, and no bucket reaches that count
at any strictly earlier position.  (In particular the winning bucket is the
first to accumulate the maximum count — not the first-seen bucket — and the
reported color is that pixel's own color, not the bucket's first color.) -/
theorem C2_amended_inferred_color_rule (sW sH : ℕ) (d : Buffer)
    (hne : ringColors sW sH d ≠ []) :
    ∃ j : Fin (ringColors sW sH d).length,
      inferBgColor sW sH d =
        ⟨((ringColors sW sH d).get j).r, ((ringColors sW sH d).get j).g,
          ((ringColors sW sH d).get j).b, 255⟩ ∧
      (∀ k, bucketCount (ringColors sW sH d) k ≤
          bucketCount ((ringColors sW sH d).take ((j : ℕ) + 1))
            (bucketKey ((ringColors sW sH d).get j))) ∧
      (∀ i : ℕ, i < (j : ℕ) → ∀ k,
          bucketCount ((ringColors sW sH d).take (i + 1)) k <
            bucketCount ((ringColors sW sH d).take ((j : ℕ) + 1))
              (bucketKey ((ringColors sW sH d).get j))) := by
  have h := foldl_coreStep_inv (ringColors sW sH d) [] initAcc accInv_init
  rw [List.nil_append] at h
  obtain ⟨-, -, hex⟩ := h
  obtain ⟨j, hr, hg, hb, hmax, hub, hmin⟩ := hex hne
  refine ⟨j, ?_, ?_, ?_⟩
  · rw [inferBgColor_eq_ring_fold, hr, hg, hb]
  · intro k
    rw [← hmax]
    exact hub k
  · intro i hi k
    rw [← hmax]
    exact hmin i hi k

/-- Witness for the amended C2 at a concrete input: the 3×1 sample rectangle
`exBufSample` with two surviving samples. -/
theorem C2_amended_inferred_color_rule_witness :
    ringColors 3 1 exBufSample ≠ [] ∧
    (∃ j : Fin (ringColors 3 1 exBufSample).length,
      inferBgColor 3 1 exBufSample =
        ⟨((ringColors 3 1 exBufSample).get j).r, ((ringColors 3 1 exBufSample).get j).g,
          ((ringColors 3 1 exBufSample).get j).b, 255⟩ ∧
      (∀ k, bucketCount (ringColors 3 1 exBufSample) k ≤
          bucketCount ((ringColors 3 1 exBufSample).take ((j : ℕ) + 1))
            (bucketKey ((ringColors 3 1 exBufSample).get j))) ∧
      (∀ i : ℕ, i < (j : ℕ) → ∀ k,
          bucketCount ((ringColors 3 1 exBufSample).take (i + 1)) k <
            bucketCount ((ringColors 3 1 exBufSample).take ((j : ℕ) + 1))
              (bucketKey ((ringColors 3 1 exBufSample).get j)))) :=
  ⟨by decide, C2_amended_inferred_color_rule 3 1 exBufSample (by decide)⟩

end SmartEDT
